import Mathlib

/-!
Verification development for the g-sorcery core
(`g_sorcery/g_collections.py`, `g_sorcery/backend.py`, `g_sorcery/fileutils.py`).

The Python source is shallowly embedded: pure functions become Lean
functions over `List Char` / `List Nat` / structures, Python `set`s become
duplicate-free `List`s with explicit insert/erase/membership, and fallible
code returns `Option` / `Except`.  Machine-level details that the claims do
not depend on (actual SHA-512 / BLAKE2B digests, the integer value returned
by Python's `hash`) are abstracted as function parameters or as the tuple of
data fed to `hash`.
-/

namespace GSorcery

/-! ## Generic helpers: Python comparison and splitting primitives -/

/-- Lexicographic comparison of two lists given a strict order on elements.
This is the comparison Python performs for `tuple < tuple` and `str < str`:
compare elementwise, first strict difference decides, a strict prefix is
smaller. -/
def lexLt {α : Type} (lt : α → α → Bool) : List α → List α → Bool
  | [], [] => false
  | [], _ :: _ => true
  | _ :: _, [] => false
  | a :: as, b :: bs => if lt a b then true else if lt b a then false else lexLt lt as bs

/-- Strict order on `Nat` as a boolean, for `lexLt` (Python `int` `<`). -/
def natLtB (a b : Nat) : Bool := decide (a < b)

/-- Strict order on `Char` by code point, as Python compares characters. -/
def charLtB (a b : Char) : Bool := decide (a.toNat < b.toNat)

/-- Python tuple comparison on integer tuples. -/
def tupleLt (a b : List Nat) : Bool := lexLt natLtB a b

/-- Python string comparison `a < b` (code-point lexicographic). -/
def charListLt (a b : List Char) : Bool := lexLt charLtB a b

/-- Python string comparison on `String`. -/
def pyStrLt (a b : String) : Bool := charListLt a.data b.data

/-- Python `a <= b` on strings, i.e. `not (b < a)` for a total order. -/
def pyStrLe (a b : String) : Bool := !(pyStrLt b a)

/-- Python `s.split(sep)` for a one-character separator, on character lists. -/
def splitOnChar (sep : Char) : List Char → List (List Char)
  | [] => [[]]
  | c :: r =>
    match splitOnChar sep r with
    | g :: gs => if c = sep then [] :: g :: gs else (c :: g) :: gs
    | [] => [[c]]

/-- Python `s.split(sep)` for a one-character separator, on `String`. -/
def pySplit (sep : Char) (s : String) : List String :=
  (splitOnChar sep s.data).map String.mk

/-- Python `s.startswith(p)`. -/
def pyStartsWith (s p : String) : Bool := p.data.isPrefixOf s.data

/-! ### Order facts for `lexLt` -/

theorem lexLt_trans {α : Type} (lt : α → α → Bool)
    (hconn : ∀ a b, lt a b = false → lt b a = false → a = b)
    (htrans : ∀ a b c, lt a b = true → lt b c = true → lt a c = true) :
    ∀ a b c : List α, lexLt lt a b = true → lexLt lt b c = true → lexLt lt a c = true := by
  intro a
  induction a with
  | nil =>
    intro b c hab hbc
    cases b with
    | nil => simp [lexLt] at hab
    | cons y bs =>
      cases c with
      | nil => simp [lexLt] at hbc
      | cons z cs => simp [lexLt]
  | cons x as ih =>
    intro b c hab hbc
    cases b with
    | nil => simp [lexLt] at hab
    | cons y bs =>
      cases c with
      | nil => simp [lexLt] at hbc
      | cons z cs =>
        simp only [lexLt] at hab hbc ⊢
        cases hxy : lt x y with
        | true =>
          cases hyz : lt y z with
          | true => simp [htrans x y z hxy hyz]
          | false =>
            cases hzy : lt z y with
            | true => simp [hyz, hzy] at hbc
            | false =>
              have : y = z := hconn y z hyz hzy
              subst this
              simp [hxy]
        | false =>
          cases hyx : lt y x with
          | true => simp [hxy, hyx] at hab
          | false =>
            have hxey : x = y := hconn x y hxy hyx
            subst hxey
            simp only [hxy, if_false] at hab
            cases hxz : lt x z with
            | true => simp
            | false =>
              cases hzx : lt z x with
              | true => simp [hxz, hzx] at hbc
              | false =>
                simp only [hxz, hzx, if_false] at hbc ⊢
                exact ih bs cs hab hbc

theorem lexLt_asym {α : Type} (lt : α → α → Bool)
    (hasym : ∀ a b, lt a b = true → lt b a = true → False) :
    ∀ a b : List α, lexLt lt a b = true → lexLt lt b a = true → False := by
  intro a
  induction a with
  | nil =>
    intro b hab hba
    cases b with
    | nil => simp [lexLt] at hab
    | cons y bs => simp [lexLt] at hba
  | cons x as ih =>
    intro b hab hba
    cases b with
    | nil => simp [lexLt] at hab
    | cons y bs =>
      simp only [lexLt] at hab hba
      by_cases hxy : lt x y = true
      · by_cases hyx : lt y x = true
        · exact hasym x y hxy hyx
        · simp [hxy, hyx] at hba
      · by_cases hyx : lt y x = true
        · simp [hxy, hyx] at hab
        · simp only [hxy, hyx, if_neg, if_false] at hab hba
          simp at hab hba
          exact ih bs hab hba

theorem lexLt_conn {α : Type} (lt : α → α → Bool)
    (hconn : ∀ a b, lt a b = false → lt b a = false → a = b) :
    ∀ a b : List α, lexLt lt a b = false → lexLt lt b a = false → a = b := by
  intro a
  induction a with
  | nil =>
    intro b hab _
    cases b with
    | nil => rfl
    | cons y bs => simp [lexLt] at hab
  | cons x as ih =>
    intro b hab hba
    cases b with
    | nil => simp [lexLt] at hba
    | cons y bs =>
      simp only [lexLt] at hab hba
      by_cases hxy : lt x y = true
      · simp [hxy] at hab
      · by_cases hyx : lt y x = true
        · simp [hxy, hyx] at hba
        · have hxey : x = y := hconn x y (by simpa using hxy) (by simpa using hyx)
          subst hxey
          simp only [hxy, if_neg, if_false] at hab hba
          simp at hab hba
          exact congrArg (x :: ·) (ih bs (by simpa using hab) (by simpa using hba))

theorem lexLt_irrefl {α : Type} (lt : α → α → Bool)
    (hasym : ∀ a b, lt a b = true → lt b a = true → False)
    (a : List α) : lexLt lt a a = false := by
  cases h : lexLt lt a a
  · rfl
  · exact absurd (lexLt_asym lt hasym a a h h) (by simp)

theorem natLtB_conn : ∀ a b : Nat, natLtB a b = false → natLtB b a = false → a = b := by
  intro a b h1 h2
  simp [natLtB] at h1 h2
  omega

theorem natLtB_trans : ∀ a b c : Nat, natLtB a b = true → natLtB b c = true → natLtB a c = true := by
  intro a b c h1 h2
  simp [natLtB] at h1 h2 ⊢
  omega

theorem natLtB_asym : ∀ a b : Nat, natLtB a b = true → natLtB b a = true → False := by
  intro a b h1 h2
  simp [natLtB] at h1 h2
  omega

theorem charLtB_conn : ∀ a b : Char, charLtB a b = false → charLtB b a = false → a = b := by
  intro a b h1 h2
  simp [charLtB] at h1 h2
  have : a.toNat = b.toNat := by omega
  exact Char.ext (UInt32.ext this)

theorem charLtB_trans : ∀ a b c : Char, charLtB a b = true → charLtB b c = true → charLtB a c = true := by
  intro a b c h1 h2
  simp [charLtB] at h1 h2 ⊢
  omega

theorem charLtB_asym : ∀ a b : Char, charLtB a b = true → charLtB b a = true → False := by
  intro a b h1 h2
  simp [charLtB] at h1 h2
  omega

theorem tupleLt_trans (a b c : List Nat) :
    tupleLt a b = true → tupleLt b c = true → tupleLt a c = true :=
  lexLt_trans natLtB natLtB_conn natLtB_trans a b c

theorem tupleLt_asym (a b : List Nat) :
    tupleLt a b = true → tupleLt b a = true → False :=
  lexLt_asym natLtB natLtB_asym a b

theorem tupleLt_conn (a b : List Nat) :
    tupleLt a b = false → tupleLt b a = false → a = b :=
  lexLt_conn natLtB natLtB_conn a b

theorem tupleLt_irrefl (a : List Nat) : tupleLt a a = false :=
  lexLt_irrefl natLtB natLtB_asym a

theorem tupleLt_total (a b : List Nat) (h : a ≠ b) :
    tupleLt a b = true ∨ tupleLt b a = true := by
  by_cases h1 : tupleLt a b = true
  · exact Or.inl h1
  · by_cases h2 : tupleLt b a = true
    · exact Or.inr h2
    · exact absurd (tupleLt_conn a b (by simpa using h1) (by simpa using h2)) h

theorem charListLt_trans (a b c : List Char) :
    charListLt a b = true → charListLt b c = true → charListLt a c = true :=
  lexLt_trans charLtB charLtB_conn charLtB_trans a b c

theorem charListLt_asym (a b : List Char) :
    charListLt a b = true → charListLt b a = true → False :=
  lexLt_asym charLtB charLtB_asym a b

theorem charListLt_conn (a b : List Char) :
    charListLt a b = false → charListLt b a = false → a = b :=
  lexLt_conn charLtB charLtB_conn a b

theorem pyStrLt_trans (a b c : String) :
    pyStrLt a b = true → pyStrLt b c = true → pyStrLt a c = true :=
  charListLt_trans a.data b.data c.data

theorem pyStrLt_asym (a b : String) :
    pyStrLt a b = true → pyStrLt b a = true → False :=
  charListLt_asym a.data b.data

theorem pyStrLt_conn (a b : String) :
    pyStrLt a b = false → pyStrLt b a = false → a = b := by
  intro h1 h2
  have h := charListLt_conn a.data b.data h1 h2
  cases a
  cases b
  exact congrArg String.mk h

theorem pyStrLt_total (a b : String) (h : a ≠ b) :
    pyStrLt a b = true ∨ pyStrLt b a = true := by
  by_cases h1 : pyStrLt a b = true
  · exact Or.inl h1
  · by_cases h2 : pyStrLt b a = true
    · exact Or.inr h2
    · exact absurd (pyStrLt_conn a b (by simpa using h1) (by simpa using h2)) h

/-! ### Python `list.sort()` on string lists

Python's sort is a comparison sort by `<`; since the order on strings is
total and equal keys are identical strings, its output is the unique
`pyStrLe`-sorted permutation of the input, which insertion sort computes. -/

def orderedInsertStr (x : String) : List String → List String
  | [] => [x]
  | y :: ys => if pyStrLe x y = true then x :: y :: ys else y :: orderedInsertStr x ys

/-- Model of Python `list.sort()` for a list of strings. -/
def pySortStrings : List String → List String
  | [] => []
  | x :: xs => orderedInsertStr x (pySortStrings xs)

/-- Sortedness with respect to the Python string order. -/
def SortedStr (l : List String) : Prop := List.Sorted (fun a b => pyStrLe a b = true) l

theorem pyStrLe_of_not_le {a b : String} (h : pyStrLe a b = false) : pyStrLe b a = true := by
  simp only [pyStrLe, Bool.not_eq_false'] at h
  simp only [pyStrLe, Bool.not_eq_true']
  cases hab : pyStrLt a b with
  | false => rfl
  | true => exact absurd (pyStrLt_asym a b hab h) (by simp)

theorem pyStrLe_trans {a b c : String} (h1 : pyStrLe a b = true) (h2 : pyStrLe b c = true) :
    pyStrLe a c = true := by
  simp only [pyStrLe, Bool.not_eq_true'] at h1 h2 ⊢
  cases hca : pyStrLt c a with
  | false => rfl
  | true =>
    cases hbc : pyStrLt b c with
    | false =>
      have : b = c := pyStrLt_conn b c hbc h2
      subst this
      exact absurd hca (by simp [h1])
    | true => exact absurd (pyStrLt_trans b c a hbc hca) (by simp [h1])

theorem pyStrLe_antisymm {a b : String} (h1 : pyStrLe a b = true) (h2 : pyStrLe b a = true) :
    a = b := by
  simp only [pyStrLe, Bool.not_eq_true'] at h1 h2
  exact pyStrLt_conn a b h2 h1

theorem perm_orderedInsertStr (x : String) (l : List String) :
    (orderedInsertStr x l).Perm (x :: l) := by
  induction l with
  | nil => simp [orderedInsertStr]
  | cons y ys ih =>
    simp only [orderedInsertStr]
    by_cases h : pyStrLe x y = true
    · rw [if_pos h]
    · rw [if_neg h]
      exact ((ih.cons y).trans (List.Perm.swap x y ys))

theorem mem_orderedInsertStr {b x : String} {l : List String} :
    b ∈ orderedInsertStr x l ↔ b = x ∨ b ∈ l := by
  rw [(perm_orderedInsertStr x l).mem_iff]
  simp

theorem perm_pySortStrings (l : List String) : (pySortStrings l).Perm l := by
  induction l with
  | nil => simp [pySortStrings]
  | cons x xs ih =>
    simp only [pySortStrings]
    exact (perm_orderedInsertStr x (pySortStrings xs)).trans (ih.cons x)

theorem sorted_orderedInsertStr (x : String) (l : List String) (h : SortedStr l) :
    SortedStr (orderedInsertStr x l) := by
  induction l with
  | nil => simp [orderedInsertStr, SortedStr]
  | cons y ys ih =>
    simp only [SortedStr, List.sorted_cons] at h
    obtain ⟨hy, hys⟩ := h
    simp only [orderedInsertStr]
    by_cases hxy : pyStrLe x y = true
    · rw [if_pos hxy]
      simp only [SortedStr, List.sorted_cons]
      refine ⟨?_, hy, hys⟩
      intro b hb
      rcases List.mem_cons.mp hb with hb | hb
      · subst hb
        exact hxy
      · exact pyStrLe_trans hxy (hy b hb)
    · rw [if_neg hxy]
      simp only [SortedStr, List.sorted_cons]
      constructor
      · intro b hb
        rcases mem_orderedInsertStr.mp hb with hb | hb
        · subst hb
          exact pyStrLe_of_not_le (by simpa using hxy)
        · exact hy b hb
      · exact ih hys

theorem sorted_pySortStrings (l : List String) : SortedStr (pySortStrings l) := by
  induction l with
  | nil => simp [pySortStrings, SortedStr]
  | cons x xs ih => exact sorted_orderedInsertStr x (pySortStrings xs) ih

theorem eq_of_perm_of_sortedStr {l₁ l₂ : List String} (hp : l₁.Perm l₂)
    (h1 : SortedStr l₁) (h2 : SortedStr l₂) : l₁ = l₂ := by
  haveI : IsAntisymm String (fun a b => pyStrLe a b = true) :=
    ⟨fun a b hab hba => pyStrLe_antisymm hab hba⟩
  exact List.eq_of_perm_of_sorted hp h1 h2

theorem pySortStrings_congr_perm {l₁ l₂ : List String} (hp : l₁.Perm l₂) :
    pySortStrings l₁ = pySortStrings l₂ :=
  eq_of_perm_of_sortedStr
    ((perm_pySortStrings l₁).trans (hp.trans (perm_pySortStrings l₂).symm))
    (sorted_pySortStrings l₁) (sorted_pySortStrings l₂)

/-! ## Version (`g_collections.py`, class `Version`)

`components` is the tuple of dot-separated integers, `suffix` the optional
letter, and `alpha` … `revision` the optional staged qualifiers, exactly the
instance attributes of the Python class. -/

structure Version where
  components : List Nat
  suffix : String
  alpha : Option Nat
  beta : Option Nat
  pre : Option Nat
  rc : Option Nat
  p : Option Nat
  revision : Option Nat
deriving DecidableEq, Repr

/-- Pad a component tuple on the right with zeros up to length `l`
(`sc = self.components + ((0,) * (l - len(self.components)))`). -/
def padTo (l : Nat) (xs : List Nat) : List Nat :=
  xs ++ List.replicate (l - xs.length) 0

/-- One step of the qualifier loop in `Version.__lt__`: when `sa != oa`,
`return sa < oa` if both are present, otherwise
`return sign*int(sa is not None) < sign*int(oa is not None)`. -/
def qualLt (sign : Int) (sa oa : Option Nat) : Bool :=
  match sa, oa with
  | some a, some b => decide (a < b)
  | _, _ =>
    decide (sign * (if sa.isSome then 1 else 0) < sign * (if oa.isSome then 1 else 0))

/-- The `for attr, sign in [...]` loop of `Version.__lt__`, with the final
`return False` when every qualifier agrees. -/
def qualsLt : List Int → List (Option Nat) → List (Option Nat) → Bool
  | sign :: signs, x :: xs, y :: ys =>
    if x ≠ y then qualLt sign x y else qualsLt signs xs ys
  | _, _, _ => false

/-- The sign list `[('alpha', -1), ..., ('p', 1), ('revision', 1)]`. -/
def versionSigns : List Int := [-1, -1, -1, -1, 1, 1]

/-- The qualifier attributes in the order the comparison loop visits them. -/
def Version.quals (v : Version) : List (Option Nat) :=
  [v.alpha, v.beta, v.pre, v.rc, v.p, v.revision]

/-- Body of `Version.__lt__` with the padding length `l` as a parameter. -/
def versionLtAt (L : Nat) (v w : Version) : Bool :=
  if padTo L v.components ≠ padTo L w.components then
    tupleLt (padTo L v.components) (padTo L w.components)
  else if v.suffix ≠ w.suffix then pyStrLt v.suffix w.suffix
  else qualsLt versionSigns v.quals w.quals

/-- `Version.__lt__`: `l = max(len(self.components), len(other.components))`,
compare zero-padded component tuples, then the suffix string, then the
qualifiers. -/
def Version.lt (v w : Version) : Bool :=
  versionLtAt (max v.components.length w.components.length) v w

/-- Body of `Version.__eq__` with the padding length as a parameter. -/
def versionEqAt (L : Nat) (v w : Version) : Bool :=
  decide (padTo L v.components = padTo L w.components) &&
    (decide (v.suffix = w.suffix) && decide (v.quals = w.quals))

/-- `Version.__eq__`: zero-padded component tuples equal and every one of
`suffix, alpha, beta, pre, rc, p, revision` equal. -/
def Version.eqv (v w : Version) : Bool :=
  versionEqAt (max v.components.length w.components.length) v w

/-- The tuple `Version.__hash__` feeds to Python's `hash`: the reversed
component tuple with leading zeros (i.e. trailing zeros of the original)
dropped, then all remaining attributes.  Python's `hash` is a function of
this tuple, so equal `hashData` implies equal `hash`. -/
def Version.hashData (v : Version) :
    List Nat × String × Option Nat × Option Nat × Option Nat × Option Nat ×
      Option Nat × Option Nat :=
  ((v.components.reverse).dropWhile (fun c => c == 0),
    v.suffix, v.alpha, v.beta, v.pre, v.rc, v.p, v.revision)

/-! ### `Version.deserialize` -/

/-- ASCII digit test (`[0-9]` in the regex). -/
def isDigitB (c : Char) : Bool := decide (48 ≤ c.toNat) && decide (c.toNat ≤ 57)

/-- Character class `[0-9\.]` of the components group. -/
def isVerChar (c : Char) : Bool := isDigitB c || c = '.'

/-- Character class `[a-z]` of the suffix group. -/
def isLowerAZ (c : Char) : Bool := decide (97 ≤ c.toNat) && decide (c.toNat ≤ 122)

/-- Python `int` on a non-empty string of ASCII digits. -/
def natOfDigits (l : List Char) : Nat :=
  l.foldl (fun a c => a * 10 + (c.toNat - 48)) 0

/-- One optional group `(?:<tag>([0-9]+))?` of the `Version.deserialize`
regex: consumed only when the literal tag is followed by at least one
digit, otherwise left for the (failing) remainder of the match. -/
def parseQual (tag : List Char) (l : List Char) : Option Nat × List Char :=
  if tag.isPrefixOf l then
    let rest := l.drop tag.length
    let ds := rest.takeWhile isDigitB
    if ds.isEmpty then (none, l) else (some (natOfDigits ds), rest.drop ds.length)
  else (none, l)

/-- `Version.deserialize`: full-anchored match of
`([0-9\.]+)([a-z])?(?:_alpha([0-9]+))?(?:_beta([0-9]+))?(?:_pre([0-9]+))?`
`(?:_rc([0-9]+))?(?:_p([0-9]+))?(?:-r([0-9]+))?` followed by the class
constructor; `none` where the Python code raises (no match, or `int('')`).
The character classes are disjoint from the literal tags, so the greedy
left-to-right parse is exact. -/
def Version.deserialize (s : String) : Option Version :=
  let l := s.data
  let raw := l.takeWhile isVerChar
  let rest0 := l.drop raw.length
  if raw.isEmpty then none
  else
    let groups := splitOnChar '.' raw
    if groups.any (fun g => g.isEmpty) then none
    else
      let components := groups.map natOfDigits
      let sfx :=
        match rest0 with
        | c :: r => if isLowerAZ c then (String.mk [c], r) else ("", rest0)
        | [] => ("", rest0)
      let a1 := parseQual ('_' :: "alpha".data) sfx.2
      let b1 := parseQual ('_' :: "beta".data) a1.2
      let p1 := parseQual ('_' :: "pre".data) b1.2
      let r1 := parseQual ('_' :: "rc".data) p1.2
      let q1 := parseQual ('_' :: "p".data) r1.2
      let v1 := parseQual ('-' :: "r".data) q1.2
      if v1.2.isEmpty then
        some (Version.mk components sfx.1 a1.1 b1.1 p1.1 r1.1 q1.1 v1.1)
      else none

/-- Parse two version strings and compare with `Version.__lt__`
(`False` when either fails to parse). -/
def ltStr (s t : String) : Bool :=
  match Version.deserialize s, Version.deserialize t with
  | some v, some w => Version.lt v w
  | _, _ => false

/-- Parse two version strings and compare with `Version.__eq__`
(`False` when either fails to parse). -/
def eqStr (s t : String) : Bool :=
  match Version.deserialize s, Version.deserialize t with
  | some v, some w => Version.eqv v w
  | _, _ => false

example : Version.deserialize "1.2_alpha3-r4" =
    some (Version.mk [1, 2] "" (some 3) none none none none (some 4)) := by decide

example : Version.deserialize "10.04b_rc7" =
    some (Version.mk [10, 4] "b" none none none (some 7) none none) := by decide

example : Version.deserialize "1..2" = none := by decide

example : Version.deserialize "1.0_alpha" = none := by decide

example : eqStr "1.2" "1.2.0" = true := by decide

example : ltStr "1.0_alpha1" "1.0_alpha2" = true := by decide

example : ltStr "1.0_alpha2" "1.0" = true := by decide

example : ltStr "1.0" "1.0-r1" = true := by decide

/-! ### Order facts for `Version.lt` / `Version.eqv` -/

theorem tupleLt_append_same (x : List Nat) (r s : List Nat) :
    tupleLt (x ++ r) (x ++ s) = tupleLt r s := by
  induction x with
  | nil => rfl
  | cons a as ih =>
    simp only [List.cons_append, tupleLt, lexLt]
    have : natLtB a a = false := by simp [natLtB]
    rw [this]
    simpa [tupleLt] using ih

theorem tupleLt_append_ne (x y : List Nat) (r s : List Nat)
    (hlen : x.length = y.length) (hne : x ≠ y) :
    tupleLt (x ++ r) (y ++ s) = tupleLt x y := by
  induction x generalizing y with
  | nil =>
    cases y with
    | nil => exact absurd rfl hne
    | cons b bs => simp at hlen
  | cons a as ih =>
    cases y with
    | nil => simp at hlen
    | cons b bs =>
      simp only [List.cons_append, tupleLt, lexLt]
      cases hab : natLtB a b with
      | true => rfl
      | false =>
        cases hba : natLtB b a with
        | true => rfl
        | false =>
          have : a = b := natLtB_conn a b hab hba
          subst this
          have hne' : as ≠ bs := by
            intro hcon
            exact hne (by rw [hcon])
          simpa [tupleLt] using ih bs (by simpa using hlen) hne'

theorem padTo_length (L : Nat) (xs : List Nat) (h : xs.length ≤ L) :
    (padTo L xs).length = L := by
  simp [padTo]
  omega

theorem padTo_add (L n : Nat) (xs : List Nat) (h : xs.length ≤ L) :
    padTo (L + n) xs = padTo L xs ++ List.replicate n 0 := by
  simp only [padTo, List.append_assoc, ← List.replicate_add]
  congr 2
  omega

theorem padTo_eq_iff (L n : Nat) (a b : List Nat)
    (ha : a.length ≤ L) (hb : b.length ≤ L) :
    (padTo (L + n) a = padTo (L + n) b) ↔ (padTo L a = padTo L b) := by
  rw [padTo_add L n a ha, padTo_add L n b hb]
  constructor
  · intro h
    exact List.append_cancel_right h
  · intro h
    rw [h]

theorem versionLtAt_stable (L n : Nat) (v w : Version)
    (hv : v.components.length ≤ L) (hw : w.components.length ≤ L) :
    versionLtAt (L + n) v w = versionLtAt L v w := by
  have hpad : (padTo (L + n) v.components = padTo (L + n) w.components) ↔
      (padTo L v.components = padTo L w.components) :=
    padTo_eq_iff L n _ _ hv hw
  simp only [versionLtAt]
  by_cases heq : padTo L v.components = padTo L w.components
  · rw [if_neg (show ¬ (padTo (L + n) v.components ≠ padTo (L + n) w.components) from
          fun hcon => hcon (hpad.mpr heq)),
        if_neg (show ¬ (padTo L v.components ≠ padTo L w.components) from
          fun hcon => hcon heq)]
  · rw [if_pos (fun hcon => heq (hpad.mp hcon)), if_pos heq]
    rw [padTo_add L n _ hv, padTo_add L n _ hw]
    exact tupleLt_append_ne _ _ _ _
      (by rw [padTo_length L _ hv, padTo_length L _ hw]) heq

theorem versionLt_eq_at (L : Nat) (v w : Version)
    (h : max v.components.length w.components.length ≤ L) :
    Version.lt v w = versionLtAt L v w := by
  have h1 : v.components.length ≤ max v.components.length w.components.length :=
    Nat.le_max_left _ _
  have h2 : w.components.length ≤ max v.components.length w.components.length :=
    Nat.le_max_right _ _
  have : L = max v.components.length w.components.length +
      (L - max v.components.length w.components.length) := by omega
  rw [Version.lt, this, versionLtAt_stable _ _ v w h1 h2]

theorem versionEq_eq_at (L : Nat) (v w : Version)
    (h : max v.components.length w.components.length ≤ L) :
    Version.eqv v w = versionEqAt L v w := by
  have h1 : v.components.length ≤ max v.components.length w.components.length :=
    Nat.le_max_left _ _
  have h2 : w.components.length ≤ max v.components.length w.components.length :=
    Nat.le_max_right _ _
  have hL : L = max v.components.length w.components.length +
      (L - max v.components.length w.components.length) := by omega
  simp only [Version.eqv, versionEqAt]
  rw [hL]
  have hd : decide (padTo (max v.components.length w.components.length +
        (L - max v.components.length w.components.length)) v.components =
      padTo (max v.components.length w.components.length +
        (L - max v.components.length w.components.length)) w.components) =
      decide (padTo (max v.components.length w.components.length) v.components =
        padTo (max v.components.length w.components.length) w.components) :=
    decide_eq_decide.mpr (padTo_eq_iff _ _ _ _ h1 h2)
  rw [hd]

theorem qualLt_chain (s : Int) (a b c : Option Nat) (hab : a ≠ b) (hbc : b ≠ c)
    (h1 : qualLt s a b = true) (h2 : qualLt s b c = true) :
    a ≠ c ∧ qualLt s a c = true := by
  cases a <;> cases b <;> cases c <;>
    (try simp_all [qualLt]) <;> (try omega)

theorem qualLt_total (s : Int) (a b : Option Nat) (hs : s = -1 ∨ s = 1) (hab : a ≠ b) :
    qualLt s a b = true ∨ qualLt s b a = true := by
  rcases hs with hs | hs <;> subst hs <;> cases a <;> cases b <;>
    (try simp_all [qualLt]) <;> (try omega)

theorem qualsLt_trans : ∀ (signs : List Int) (xs ys zs : List (Option Nat)),
    qualsLt signs xs ys = true → qualsLt signs ys zs = true →
    qualsLt signs xs zs = true := by
  intro signs
  induction signs with
  | nil => intro xs ys zs h1; simp [qualsLt] at h1
  | cons s signs ih =>
    intro xs ys zs h1 h2
    cases xs with
    | nil => simp [qualsLt] at h1
    | cons x xs =>
      cases ys with
      | nil => simp [qualsLt] at h1
      | cons y ys =>
        cases zs with
        | nil => simp [qualsLt] at h2
        | cons z zs =>
          simp only [qualsLt] at h1 h2 ⊢
          by_cases hxy : x = y
          · subst hxy
            rw [if_neg (by simp)] at h1
            by_cases hxz : x = z
            · subst hxz
              rw [if_neg (by simp)] at h2 ⊢
              exact ih xs ys zs h1 h2
            · rw [if_pos hxz] at h2 ⊢
              exact h2
          · rw [if_pos hxy] at h1
            by_cases hyz : y = z
            · subst hyz
              rw [if_pos hxy]
              exact h1
            · rw [if_pos hyz] at h2
              obtain ⟨hxz, hlt⟩ := qualLt_chain s x y z hxy hyz h1 h2
              rw [if_pos hxz]
              exact hlt

theorem qualsLt_total : ∀ (signs : List Int) (xs ys : List (Option Nat)),
    signs.length = xs.length → xs.length = ys.length →
    (∀ s ∈ signs, s = -1 ∨ s = 1) → xs ≠ ys →
    qualsLt signs xs ys = true ∨ qualsLt signs ys xs = true := by
  intro signs
  induction signs with
  | nil =>
    intro xs ys hl1 hl2 _ hne
    cases xs with
    | nil =>
      cases ys with
      | nil => exact absurd rfl hne
      | cons y ys => simp at hl2
    | cons x xs => simp at hl1
  | cons s signs ih =>
    intro xs ys hl1 hl2 hsig hne
    cases xs with
    | nil => simp at hl1
    | cons x xs =>
      cases ys with
      | nil => simp at hl2
      | cons y ys =>
        simp only [qualsLt]
        by_cases hxy : x = y
        · subst hxy
          rw [if_neg (by simp), if_neg (by simp)]
          exact ih xs ys (by simpa using hl1) (by simpa using hl2)
            (fun t ht => hsig t (List.mem_cons_of_mem s ht))
            (fun hcon => hne (by rw [hcon]))
        · rw [if_pos hxy, if_pos (fun hcon => hxy hcon.symm)]
          exact qualLt_total s x y (hsig s (List.mem_cons_self s signs)) hxy

theorem qualsLt_irrefl : ∀ (signs : List Int) (xs : List (Option Nat)),
    qualsLt signs xs xs = false := by
  intro signs
  induction signs with
  | nil => intro xs; cases xs <;> simp [qualsLt]
  | cons s signs ih =>
    intro xs
    cases xs with
    | nil => simp [qualsLt]
    | cons x xs =>
      simp only [qualsLt]
      rw [if_neg (by simp)]
      exact ih xs

/-- The suffix/qualifier tail of `Version.__lt__` (stages after the
component comparison). -/
def versionTailLt (v w : Version) : Bool :=
  if v.suffix ≠ w.suffix then pyStrLt v.suffix w.suffix
  else qualsLt versionSigns v.quals w.quals

theorem versionLtAt_eq_tail (L : Nat) (v w : Version)
    (h : padTo L v.components = padTo L w.components) :
    versionLtAt L v w = versionTailLt v w := by
  rw [versionLtAt, if_neg (show ¬ (padTo L v.components ≠ padTo L w.components) from
    fun hcon => hcon h)]
  rfl

theorem versionTailLt_trans (a b c : Version)
    (h1 : versionTailLt a b = true) (h2 : versionTailLt b c = true) :
    versionTailLt a c = true := by
  simp only [versionTailLt] at h1 h2 ⊢
  by_cases sab : a.suffix = b.suffix
  · rw [if_neg (fun hcon => hcon sab)] at h1
    by_cases sbc : b.suffix = c.suffix
    · rw [if_neg (fun hcon => hcon sbc)] at h2
      rw [if_neg (fun hcon => hcon (sab.trans sbc))]
      exact qualsLt_trans versionSigns a.quals b.quals c.quals h1 h2
    · rw [if_pos sbc] at h2
      rw [if_pos (fun hcon => sbc (sab ▸ hcon)), sab]
      exact h2
  · rw [if_pos sab] at h1
    by_cases sbc : b.suffix = c.suffix
    · rw [if_pos (fun hcon => sab (hcon.trans sbc.symm)), ← sbc]
      exact h1
    · rw [if_pos sbc] at h2
      have hac : a.suffix ≠ c.suffix := by
        intro hcon
        rw [hcon] at h1
        exact pyStrLt_asym c.suffix b.suffix h1 h2
      rw [if_pos hac]
      exact pyStrLt_trans a.suffix b.suffix c.suffix h1 h2

theorem versionLtAt_trans (L : Nat) (a b c : Version)
    (ha : a.components.length ≤ L) (hb : b.components.length ≤ L)
    (hc : c.components.length ≤ L)
    (h1 : versionLtAt L a b = true) (h2 : versionLtAt L b c = true) :
    versionLtAt L a c = true := by
  by_cases hAB : padTo L a.components = padTo L b.components
  · rw [versionLtAt_eq_tail L a b hAB] at h1
    by_cases hBC : padTo L b.components = padTo L c.components
    · rw [versionLtAt_eq_tail L b c hBC] at h2
      rw [versionLtAt_eq_tail L a c (hAB.trans hBC)]
      exact versionTailLt_trans a b c h1 h2
    · rw [versionLtAt, if_pos (show padTo L b.components ≠ padTo L c.components from hBC)]
        at h2
      rw [versionLtAt, if_pos (show padTo L a.components ≠ padTo L c.components from
        fun hcon => hBC (hAB ▸ hcon)), hAB]
      exact h2
  · rw [versionLtAt, if_pos (show padTo L a.components ≠ padTo L b.components from hAB)]
      at h1
    by_cases hBC : padTo L b.components = padTo L c.components
    · rw [versionLtAt, if_pos (show padTo L a.components ≠ padTo L c.components from
        fun hcon => hAB (hcon.trans hBC.symm)), ← hBC]
      exact h1
    · rw [versionLtAt, if_pos (show padTo L b.components ≠ padTo L c.components from hBC)]
        at h2
      have hAC : padTo L a.components ≠ padTo L c.components := by
        intro hcon
        rw [hcon] at h1
        exact tupleLt_asym _ _ h2 h1
      rw [versionLtAt, if_pos hAC]
      exact tupleLt_trans _ _ _ h1 h2

theorem quals_length (v : Version) : v.quals.length = 6 := by
  simp [Version.quals]

theorem versionLtAt_total (L : Nat) (a b : Version)
    (h : versionEqAt L a b = false) :
    versionLtAt L a b = true ∨ versionLtAt L b a = true := by
  by_cases hAB : padTo L a.components = padTo L b.components
  · rw [versionLtAt_eq_tail L a b hAB, versionLtAt_eq_tail L b a hAB.symm]
    simp only [versionTailLt]
    by_cases sab : a.suffix = b.suffix
    · rw [if_neg (fun hcon => hcon sab), if_neg (fun hcon => hcon sab.symm)]
      have hq : a.quals ≠ b.quals := by
        intro hcon
        rw [versionEqAt] at h
        simp [hAB, sab, hcon] at h
      rcases qualsLt_total versionSigns a.quals b.quals
          (by rw [quals_length]; rfl)
          (by rw [quals_length, quals_length])
          (by
            intro s hs
            simp [versionSigns] at hs
            tauto)
          hq with ht | ht
      · exact Or.inl ht
      · exact Or.inr ht
    · rw [if_pos sab, if_pos (fun hcon => sab hcon.symm)]
      rcases pyStrLt_total a.suffix b.suffix sab with ht | ht
      · exact Or.inl (by simpa using ht)
      · exact Or.inr (by simpa using ht)
  · rcases tupleLt_total (padTo L a.components) (padTo L b.components) hAB with ht | ht
    · exact Or.inl (by rw [versionLtAt, if_pos hAB]; exact ht)
    · exact Or.inr (by
        rw [versionLtAt, if_pos (fun hcon => hAB hcon.symm)]
        exact ht)

theorem versionLtAt_not_of_eq (L : Nat) (a b : Version)
    (h : versionEqAt L a b = true) : versionLtAt L a b = false := by
  simp only [versionEqAt, Bool.and_eq_true, decide_eq_true_eq] at h
  obtain ⟨hpad, hsfx, hq⟩ := h
  rw [versionLtAt_eq_tail L a b hpad, versionTailLt,
    if_neg (fun hcon => hcon hsfx), hq]
  exact qualsLt_irrefl versionSigns b.quals

theorem versionEqAt_symm (L : Nat) (a b : Version) :
    versionEqAt L a b = versionEqAt L b a := by
  simp only [versionEqAt]
  by_cases h1 : padTo L a.components = padTo L b.components <;>
    by_cases h2 : a.suffix = b.suffix <;>
      by_cases h3 : a.quals = b.quals <;>
        simp [h1, h2, h3, eq_comm]

/-- C2: version comparison after parsing agrees with the specified
structural order.  The order given by `Version.__lt__` is transitive, is
total with respect to `Version.__eq__` (two non-equal versions always
compare strictly in one direction, equal versions in neither), numeric
components are zero-padded so `1.2 == 1.2.0`, and on parsed strings
`1.0_alpha1 < 1.0_alpha2 < 1.0 < 1.0-r1`, with the suffix letter,
`alpha/beta/pre/rc` (absence after presence) and `p`/revision (presence
after absence) tie-breaks as specified. -/
theorem claim_C2 :
    (∀ a b c : Version, Version.lt a b = true → Version.lt b c = true →
      Version.lt a c = true) ∧
    (∀ a b : Version, Version.eqv a b = false →
      Version.lt a b = true ∨ Version.lt b a = true) ∧
    (∀ a b : Version, Version.eqv a b = true →
      Version.lt a b = false ∧ Version.lt b a = false) ∧
    eqStr "1.2" "1.2.0" = true ∧
    ltStr "1.0_alpha1" "1.0_alpha2" = true ∧
    ltStr "1.0_alpha2" "1.0" = true ∧
    ltStr "1.0" "1.0-r1" = true ∧
    ltStr "1.2" "1.2a" = true ∧
    ltStr "1.0_alpha1" "1.0_beta1" = true ∧
    ltStr "1.0_beta1" "1.0_pre1" = true ∧
    ltStr "1.0_pre1" "1.0_rc1" = true ∧
    ltStr "1.0_rc1" "1.0" = true ∧
    ltStr "1.0" "1.0_p1" = true := by
  refine ⟨?_, ?_, ?_, by decide, by decide, by decide, by decide, by decide,
    by decide, by decide, by decide, by decide, by decide⟩
  · intro a b c h1 h2
    have hL1 : max a.components.length b.components.length ≤
        max (max a.components.length b.components.length) c.components.length :=
      Nat.le_max_left _ _
    have hL2 : max b.components.length c.components.length ≤
        max (max a.components.length b.components.length) c.components.length := by
      omega
    have hL3 : max a.components.length c.components.length ≤
        max (max a.components.length b.components.length) c.components.length := by
      omega
    rw [versionLt_eq_at _ a b hL1] at h1
    rw [versionLt_eq_at _ b c hL2] at h2
    rw [versionLt_eq_at _ a c hL3]
    exact versionLtAt_trans _ a b c (by omega) (by omega) (by omega) h1 h2
  · intro a b h
    rw [Version.eqv] at h
    rw [Version.lt, Version.lt, Nat.max_comm b.components.length a.components.length]
    exact versionLtAt_total _ a b h
  · intro a b h
    rw [Version.eqv] at h
    constructor
    · rw [Version.lt]
      exact versionLtAt_not_of_eq _ a b h
    · rw [Version.lt, Nat.max_comm b.components.length a.components.length]
      exact versionLtAt_not_of_eq _ b a (by rw [versionEqAt_symm]; exact h)

theorem claim_C2_witness :
    Version.lt (Version.mk [1] "" none none none none none none)
      (Version.mk [3] "" none none none none none none) = true :=
  claim_C2.1 (Version.mk [1] "" none none none none none none)
    (Version.mk [2] "" none none none none none none)
    (Version.mk [3] "" none none none none none none) (by decide) (by decide)

/-! ### Hash/equality compatibility (claim C10) -/

theorem dropZeros_replicate (k : Nat) (xs : List Nat) :
    (List.replicate k 0 ++ xs).dropWhile (fun c => c == 0) =
      xs.dropWhile (fun c => c == 0) := by
  induction k with
  | zero => simp
  | succ n ih => simpa [List.replicate_succ] using ih

theorem dropZeros_padTo_reverse (L : Nat) (xs : List Nat) :
    ((padTo L xs).reverse).dropWhile (fun c => c == 0) =
      (xs.reverse).dropWhile (fun c => c == 0) := by
  simp only [padTo, List.reverse_append, List.reverse_replicate]
  exact dropZeros_replicate _ _

/-- C10: `Version.__eq__` (which pads missing trailing components with
zeros) is compatible with `Version.__hash__` (which drops trailing zero
components before hashing): equal versions feed identical data to `hash`,
e.g. `Version((1,2))` and `Version((1,2,0))`. -/
theorem claim_C10 :
    (∀ v w : Version, Version.eqv v w = true → v.hashData = w.hashData) ∧
    Version.eqv (Version.mk [1, 2] "" none none none none none none)
      (Version.mk [1, 2, 0] "" none none none none none none) = true ∧
    (Version.mk [1, 2] "" none none none none none none).hashData =
      (Version.mk [1, 2, 0] "" none none none none none none).hashData := by
  refine ⟨?_, by decide, by rfl⟩
  intro v w h
  simp only [Version.eqv, versionEqAt, Bool.and_eq_true, decide_eq_true_eq] at h
  obtain ⟨hpad, hsfx, hq⟩ := h
  have hcomp : (v.components.reverse).dropWhile (fun c => c == 0) =
      (w.components.reverse).dropWhile (fun c => c == 0) := by
    rw [← dropZeros_padTo_reverse (max v.components.length w.components.length)
        v.components,
      ← dropZeros_padTo_reverse (max v.components.length w.components.length)
        w.components,
      hpad]
  simp only [Version.quals, List.cons.injEq, and_true] at hq
  obtain ⟨ha, hb, hp, hr, hpp, hrev⟩ := hq
  simp [Version.hashData, hcomp, hsfx, ha, hb, hp, hr, hpp, hrev]

theorem claim_C10_witness :
    (Version.mk [3, 0] "" none none none none none none).hashData =
      (Version.mk [3] "" none none none none none none).hashData :=
  claim_C10.1 (Version.mk [3, 0] "" none none none none none none)
    (Version.mk [3] "" none none none none none none) (by decide)

/-! ## Package (`g_collections.py`, class `Package`)

`Package` stores `category`, `name`, `version`.  Unlike `Dependency` and
`Version`, the Python class declares `__slots__` but does NOT override
`__setattr__`, so Python slot assignment to its three fields succeeds. -/

structure Package where
  category : String
  name : String
  version : String
deriving DecidableEq, Repr

/-- `Package.__eq__`: structural comparison of the three fields. -/
def Package.eq (p q : Package) : Bool :=
  decide (p.category = q.category) && decide (p.name = q.name) &&
    decide (p.version = q.version)

/-- `Package.__str__`: `category + '/' + name + '-' + version`. -/
def Package.str (p : Package) : String :=
  p.category ++ "/" ++ p.name ++ "-" ++ p.version

/-- The string `Package.__hash__` feeds to Python's `hash`
(`hash(self.category + self.name + self.version)`); Python's `hash` is a
function of it, so equal `hashStr` implies equal hash. -/
def Package.hashStr (p : Package) : String :=
  p.category ++ p.name ++ p.version

/-- Result of a Python attribute assignment statement. -/
inductive PySetattr (α : Type)
  | ok (a : α)
  | attributeError
deriving DecidableEq, Repr

/-- Python `pkg.category = v`.  `category` is in `Package.__slots__` and the
class defines no `__setattr__`, so the assignment succeeds and rebinds the
slot (contrast `Version.__setattr__`/`Dependency.__setattr__`, which raise
`AttributeError`). -/
def Package.setattrCategory (p : Package) (v : String) : PySetattr Package :=
  .ok (Package.mk v p.name p.version)

/-- Python `pkg.name = v` (succeeds, same reasoning as `setattrCategory`). -/
def Package.setattrName (p : Package) (v : String) : PySetattr Package :=
  .ok (Package.mk p.category v p.version)

/-- Python `pkg.version = v` (succeeds, same reasoning as `setattrCategory`). -/
def Package.setattrVersion (p : Package) (v : String) : PySetattr Package :=
  .ok (Package.mk p.category p.name v)

/-- C9 counterexample: the claim's immutability half is false — assigning to
a field of a concrete `Package` succeeds (no `AttributeError`), because
`Package`, unlike `Dependency` and `Version`, does not override
`__setattr__`. -/
theorem claim_C9_counterexample :
    Package.setattrCategory (Package.mk "app" "foo" "1.0") "dev" =
      PySetattr.ok (Package.mk "dev" "foo" "1.0") := rfl

/-- C9 (amended): `Package.__eq__` and `__hash__` are structural over all
three fields — two packages are equal iff category, name and version all
agree, and equal packages feed equal strings to `hash` — but a `Package`
instance is mutable: assignment to any of its three fields succeeds. -/
theorem claim_C9 :
    (∀ p q : Package, Package.eq p q = true ↔
      (p.category = q.category ∧ p.name = q.name ∧ p.version = q.version)) ∧
    (∀ p q : Package, Package.eq p q = true → p.hashStr = q.hashStr) ∧
    (∀ p v, Package.setattrCategory p v = .ok (Package.mk v p.name p.version)) ∧
    (∀ p v, Package.setattrName p v = .ok (Package.mk p.category v p.version)) ∧
    (∀ p v, Package.setattrVersion p v = .ok (Package.mk p.category p.name v)) := by
  refine ⟨?_, ?_, fun p v => rfl, fun p v => rfl, fun p v => rfl⟩
  · intro p q
    simp [Package.eq, and_assoc]
  · intro p q h
    simp only [Package.eq, Bool.and_eq_true, decide_eq_true_eq] at h
    obtain ⟨⟨h1, h2⟩, h3⟩ := h
    simp [Package.hashStr, h1, h2, h3]

theorem claim_C9_witness :
    Package.eq (Package.mk "a" "b" "c") (Package.mk "a" "b" "c") = true ∧
    (Package.mk "a" "b" "c").hashStr = (Package.mk "a" "b" "c").hashStr :=
  ⟨(claim_C9.1 (Package.mk "a" "b" "c") (Package.mk "a" "b" "c")).mpr
      ⟨rfl, rfl, rfl⟩,
    claim_C9.2.1 (Package.mk "a" "b" "c") (Package.mk "a" "b" "c") (by decide)⟩

/-! ## Dependency (`g_collections.py`, class `Dependency`) — structured fields

The structured fields of a `Dependency`.  `atom` and `formatted` are
derived from them in `__init__` and are reproduced by `Dependency.atomStr`
and `Dependency.serialize` below. -/

structure Dependency where
  category : String
  package : String
  version : String
  operator : String
  usedep : String
  useflag : String
deriving DecidableEq, Repr

/-- The `atom_str` computed by `Dependency.__init__`
(`f'{operator}{category}/{package}-{version}'` when operator and version
are both non-empty, else `f'{category}/{package}'`). -/
def Dependency.atomStr (d : Dependency) : String :=
  if d.operator ≠ "" ∧ d.version ≠ "" then
    d.operator ++ d.category ++ "/" ++ d.package ++ "-" ++ d.version
  else d.category ++ "/" ++ d.package

/-- `Dependency.serialize` / `__str__`: the `formatted` attribute —
the atom, with `[usedep]` appended when `usedep` is non-empty, wrapped in
`useflag? ( ... )` when `useflag` is non-empty. -/
def Dependency.serialize (d : Dependency) : String :=
  let f := d.atomStr
  let f := if d.usedep ≠ "" then f ++ "[" ++ d.usedep ++ "]" else f
  if d.useflag ≠ "" then d.useflag ++ "? ( " ++ f ++ " )" else f

/-! ## Dependency resolver (`backend.py`, `Backend.solve_dependencies` and
`Backend.get_dependencies`)

Python sets of `Package` become duplicate-free lists with `pyInsert` /
`pyErase` / `∈`; the database collaborator is a record of its four query
methods, where `list_package_versions` returning `none` models an
`InvalidKeyError` and `get_package_description` returning `none` models the
`KeyError` for a missing description.  Of the logger calls only the
lookup-miss message of `solve_dependencies` is recorded (the other calls
accompany a raised error and are not observable in a return value). -/

/-- `set.add` (no-op when the element is present). -/
def pyInsert (x : Package) (s : List Package) : List Package :=
  if x ∈ s then s else s ++ [x]

/-- `set.remove` (drops the element; all our call sites have it present). -/
def pyErase (x : Package) (s : List Package) : List Package :=
  s.filter (fun y => ¬ y = x)

/-- `set |= other` (union keeping the left operand's elements). -/
def pyUnion (a b : List Package) : List Package :=
  a ++ b.filter (fun x => ¬ x ∈ a)

/-- A package description record; the resolver reads only
`desc["dependencies"]`. -/
structure PackageDescription where
  dependencies : List Dependency
deriving DecidableEq, Repr

/-- The database collaborator interface used by the resolver:
`list_categories()`, `in_category(cat, name)`,
`list_package_versions(cat, name)` (`none` = raises `InvalidKeyError`) and
`get_package_description(package)` (`none` = raises `KeyError`). -/
structure PackageDB where
  list_categories : List String
  in_category : String → String → Bool
  list_package_versions : String → String → Option (List String)
  get_package_description : Package → Option PackageDescription

/-- How a run of the resolver code can abort. -/
inductive SolveError
  | dependencyError (msg : String)
  | invalidKeyError
  | typeError
  | outOfFuel
deriving DecidableEq, Repr

/-- What a `solve_dependencies` call returns: either the documented pair
`(solved_deps, unsolved_deps)` or — on the already-solved path at the top of
the function — the bare set `solved_deps` alone (`return solved_deps`). -/
inductive SolveRet
  | pair (solved unsolved : List Package)
  | bare (solved : List Package)
deriving DecidableEq, Repr

/-- `'circular dependency for ' + category + '/' + name + '-' + version`. -/
def circularMsg (p : Package) : String :=
  "circular dependency for " ++ p.category ++ "/" ++ p.name ++ "-" ++ p.version

/-- `"package " + category + '/' + name + '-' + version + " not found"`. -/
def notFoundMsg (p : Package) : String :=
  "package " ++ p.category ++ "/" ++ p.name ++ "-" ++ p.version ++ " not found"

/-- The inner `for version in versions:` loop of `solve_dependencies`.  Each
iteration executes `solved_deps, unsolved_deps = self.solve_dependencies(...)`:
when the callee returns the documented pair this rebinds the two sets; when
it returns the bare `solved_deps` set, Python unpacks an arbitrary set of
`Package` into two names and the very next set operation on them raises a
`TypeError`/`AttributeError`/`ValueError` (never a `DependencyError`), which
`typeError` models. -/
def goVersions
    (step : Package → List Package → List Package → List String →
      Except SolveError (SolveRet × List String))
    (cat name : String) :
    List String → List Package → List Package → List String →
      Except SolveError ((List Package × List Package) × List String)
  | [], solved, unsolved, log => .ok ((solved, unsolved), log)
  | v :: vs, solved, unsolved, log =>
    match step (Package.mk cat name v) solved unsolved log with
    | .error e => .error e
    | .ok (.pair s u, log') => goVersions step cat name vs s u log'
    | .ok (.bare _, _) => .error .typeError

/-- The outer `for pkg in dependencies:` loop of `solve_dependencies`,
with the `try ... except InvalidKeyError: continue` around the version
lookup (`none` from `list_package_versions` is skipped). -/
def goDeps (db : PackageDB)
    (step : Package → List Package → List Package → List String →
      Except SolveError (SolveRet × List String)) :
    List Dependency → List Package → List Package → List String →
      Except SolveError ((List Package × List Package) × List String)
  | [], solved, unsolved, log => .ok ((solved, unsolved), log)
  | dep :: deps, solved, unsolved, log =>
    match db.list_package_versions dep.category dep.package with
    | none => goDeps db step deps solved unsolved log
    | some versions =>
      match goVersions step dep.category dep.package versions solved unsolved log with
      | .error e => .error e
      | .ok ((s, u), log') => goDeps db step deps s u log'

/-- `Backend.solve_dependencies`, with an explicit recursion-depth fuel
(the Python recursion is bounded by the number of distinct packages, so any
sufficiently large fuel yields the Python behaviour).  `None` default
arguments and the empty set coincide under `if not solved_deps`, so callers
pass the sets directly. -/
def solve_dependencies (db : PackageDB) :
    Nat → Package → List Package → List Package → List String →
      Except SolveError (SolveRet × List String)
  | 0, _, _, _, _ => .error .outOfFuel
  | fuel + 1, package, solved_deps, unsolved_deps, log =>
    if package ∈ solved_deps then .ok (.bare solved_deps, log)
    else if package ∈ unsolved_deps then
      .error (.dependencyError (circularMsg package))
    else
      let unsolved := pyInsert package unsolved_deps
      match db.get_package_description package with
      | none =>
        .ok (.pair solved_deps (pyErase package unsolved), log ++ [notFoundMsg package])
      | some desc =>
        match goDeps db (fun p s u lg => solve_dependencies db fuel p s u lg)
            desc.dependencies solved_deps unsolved log with
        | .error e => .error e
        | .ok ((s, u), log') =>
          .ok (.pair (pyInsert package s) (pyErase package u), log')

/-- The `for version in versions:` loop of `get_dependencies`
(`dependencies |= self.solve_dependencies(...)[0]`; each call starts from
fresh empty sets).  Indexing `[0]` into a bare set would raise a
`TypeError`, modelled by `typeError` (unreachable: a fresh call never takes
the bare path). -/
def gdepsVersions (db : PackageDB) (fuel : Nat) (cat name : String) :
    List String → List Package → List String →
      Except SolveError (List Package × List String)
  | [], acc, log => .ok (acc, log)
  | v :: vs, acc, log =>
    match solve_dependencies db fuel (Package.mk cat name v) [] [] log with
    | .error e => .error e
    | .ok (.pair s _, log') => gdepsVersions db fuel cat name vs (pyUnion acc s) log'
    | .ok (.bare _, _) => .error .typeError

/-- The body of `get_dependencies` after the `pkgname` parse: category
resolution (`if not category:` also treats an explicit empty category as
unset) followed by the per-version loop. -/
def getDepsNamed (db : PackageDB) (fuel : Nat) (pkgname : String)
    (category : Option String) (name : String) :
    Except SolveError (List Package × List String) :=
  if category.getD "" = "" then
    let categories := db.list_categories.filter (fun c => db.in_category c name)
    match categories with
    | [] =>
      .error (.dependencyError ("no package with name " ++ pkgname ++ " found"))
    | [cat] =>
      match db.list_package_versions cat name with
      | none => .error .invalidKeyError
      | some versions => gdepsVersions db fuel cat name versions [] []
    | _ => .error (.dependencyError "ambiguous packagename")
  else
    match db.list_package_versions (category.getD "") name with
    | none => .error .invalidKeyError
    | some versions => gdepsVersions db fuel (category.getD "") name versions [] []

/-- `Backend.get_dependencies`: split `pkgname` on `'/'`; one part is a bare
name, two parts are category/name, more raise
`DependencyError('bad package name: ...')`.  Returns the accumulated solved
set together with the logged lookup-miss messages. -/
def get_dependencies (db : PackageDB) (fuel : Nat) (pkgname : String) :
    Except SolveError (List Package × List String) :=
  match pySplit '/' pkgname with
  | [name] => getDepsNamed db fuel pkgname none name
  | [category, name] => getDepsNamed db fuel pkgname (some category) name
  | _ => .error (.dependencyError ("bad package name: " ++ pkgname))

/-! ### Concrete databases for the resolver claims -/

/-- A dependency entry `category/name` as stored in a description record. -/
def depOn (cat name : String) : Dependency :=
  Dependency.mk cat name "" "" "" ""

/-- Diamond database: `app/A-1 → {B, C}`, `app/B-1 → {D}`, `app/C-1 → {D}`,
`app/D-1 → {}` (each package has exactly one version). -/
def diamondDb : PackageDB :=
  PackageDB.mk ["app"]
    (fun c n => decide (c = "app") &&
      (decide (n = "A") || decide (n = "B") || decide (n = "C") || decide (n = "D")))
    (fun c n =>
      if c = "app" ∧ (n = "A" ∨ n = "B" ∨ n = "C" ∨ n = "D") then some ["1"] else none)
    (fun p =>
      if p = Package.mk "app" "A" "1" then
        some (PackageDescription.mk [depOn "app" "B", depOn "app" "C"])
      else if p = Package.mk "app" "B" "1" then
        some (PackageDescription.mk [depOn "app" "D"])
      else if p = Package.mk "app" "C" "1" then
        some (PackageDescription.mk [depOn "app" "D"])
      else if p = Package.mk "app" "D" "1" then
        some (PackageDescription.mk [])
      else none)

/-- C1: the claim is right about the intended algorithm but the code is
wrong.  On a package that is already fully resolved, `solve_dependencies`
executes `return solved_deps` — the bare set, not the documented pair
`(solved_deps, unsolved_deps)` — so the caller's unpacking corrupts its
loop state and the next set operation raises.  In the diamond database
(`A→{B,C}`, `B→{D}`, `C→{D}`) the second visit to `D` takes that path and
`get_dependencies` aborts with a non-`DependencyError` exception instead of
returning the closure `{A,B,C,D}`. -/
theorem claim_C1 :
    solve_dependencies diamondDb 10 (Package.mk "app" "D" "1")
        [Package.mk "app" "D" "1", Package.mk "app" "B" "1"]
        [Package.mk "app" "A" "1", Package.mk "app" "C" "1"] [] =
      .ok (.bare [Package.mk "app" "D" "1", Package.mk "app" "B" "1"], []) ∧
    get_dependencies diamondDb 10 "A" = .error .typeError := by
  constructor
  · rfl
  · rfl

/-- Database for claim C5 (resolver completeness): `app/A-1 → {B, C}`,
`app/B-1 → {D}`, `app/C-1 → {}`, `app/D-1 → {}`, one version each. -/
def treeDb : PackageDB :=
  PackageDB.mk ["app"]
    (fun c n => decide (c = "app") &&
      (decide (n = "A") || decide (n = "B") || decide (n = "C") || decide (n = "D")))
    (fun c n =>
      if c = "app" ∧ (n = "A" ∨ n = "B" ∨ n = "C" ∨ n = "D") then some ["1"] else none)
    (fun p =>
      if p = Package.mk "app" "A" "1" then
        some (PackageDescription.mk [depOn "app" "B", depOn "app" "C"])
      else if p = Package.mk "app" "B" "1" then
        some (PackageDescription.mk [depOn "app" "D"])
      else if p = Package.mk "app" "C" "1" then
        some (PackageDescription.mk [])
      else if p = Package.mk "app" "D" "1" then
        some (PackageDescription.mk [])
      else none)

/-- Database for the version-enumeration half of C5: `app/A-1` depends on
`>=app/B-2` (an explicit operator and version constraint) and `app/B` has
the two versions `1` and `2`. -/
def multiVerDb : PackageDB :=
  PackageDB.mk ["app"]
    (fun c n => decide (c = "app") && (decide (n = "A") || decide (n = "B")))
    (fun c n =>
      if c = "app" ∧ n = "A" then some ["1"]
      else if c = "app" ∧ n = "B" then some ["1", "2"]
      else none)
    (fun p =>
      if p = Package.mk "app" "A" "1" then
        some (PackageDescription.mk [Dependency.mk "app" "B" "2" ">=" "" ""])
      else if p = Package.mk "app" "B" "1" then some (PackageDescription.mk [])
      else if p = Package.mk "app" "B" "2" then some (PackageDescription.mk [])
      else none)

/-- C5: resolver completeness.  With `A→{B,C}`, `B→{D}` and one version of
each package, `get_dependencies` on `"A"` returns exactly the set
`{A, B, C, D}` (stated as an equality to the concretely computed solved set
plus mutual containment with the four-element set).  And the resolver
enumerates every listed version of a referenced name regardless of the
dependency's operator/version constraint: with `A → >=app/B-2` and `B`
having versions `1` and `2`, both `B-1` and `B-2` are pulled in. -/
theorem claim_C5 :
    get_dependencies treeDb 10 "A" =
      .ok ([Package.mk "app" "D" "1", Package.mk "app" "B" "1",
        Package.mk "app" "C" "1", Package.mk "app" "A" "1"], []) ∧
    [Package.mk "app" "D" "1", Package.mk "app" "B" "1",
        Package.mk "app" "C" "1", Package.mk "app" "A" "1"] ⊆
      [Package.mk "app" "A" "1", Package.mk "app" "B" "1",
        Package.mk "app" "C" "1", Package.mk "app" "D" "1"] ∧
    [Package.mk "app" "A" "1", Package.mk "app" "B" "1",
        Package.mk "app" "C" "1", Package.mk "app" "D" "1"] ⊆
      [Package.mk "app" "D" "1", Package.mk "app" "B" "1",
        Package.mk "app" "C" "1", Package.mk "app" "A" "1"] ∧
    get_dependencies multiVerDb 10 "A" =
      .ok ([Package.mk "app" "B" "1", Package.mk "app" "B" "2",
        Package.mk "app" "A" "1"], []) := by
  refine ⟨rfl, ?_, ?_, rfl⟩ <;> decide

/-- Database for claim C6, first tolerance case: `app/A-1 → {X}` where
`app/X` has a listed version `1` but no description record in the database
(`get_package_description` raises `KeyError`). -/
def missingDescDb : PackageDB :=
  PackageDB.mk ["app"]
    (fun c n => decide (c = "app") && (decide (n = "A") || decide (n = "X")))
    (fun c n =>
      if c = "app" ∧ (n = "A" ∨ n = "X") then some ["1"] else none)
    (fun p =>
      if p = Package.mk "app" "A" "1" then
        some (PackageDescription.mk [depOn "app" "X"])
      else none)

/-- Database for claim C6, second tolerance case: `app/A-1 → {X}` where the
name `app/X` is not listed at all (`list_package_versions` raises
`InvalidKeyError`). -/
def missingNameDb : PackageDB :=
  PackageDB.mk ["app"]
    (fun c n => decide (c = "app") && decide (n = "A"))
    (fun c n => if c = "app" ∧ n = "A" then some ["1"] else none)
    (fun p =>
      if p = Package.mk "app" "A" "1" then
        some (PackageDescription.mk [depOn "app" "X"])
      else none)

/-- C6: resolver tolerance.  A package whose description is absent is a soft
condition: `solve_dependencies`, entered with `X` on top of an in-progress
set containing `A`, logs the lookup miss, removes `X` from the in-progress
set and returns the pair without raising; consequently resolving `"A"`
against `A→{X}` with `X`'s description missing returns `{A}` (with the miss
logged), and a dependency naming a category/name the database does not list
at all is silently ignored (`{A}`, nothing logged). -/
theorem claim_C6 :
    solve_dependencies missingDescDb 10 (Package.mk "app" "X" "1")
        [] [Package.mk "app" "A" "1"] [] =
      .ok (.pair [] [Package.mk "app" "A" "1"],
        [notFoundMsg (Package.mk "app" "X" "1")]) ∧
    get_dependencies missingDescDb 10 "A" =
      .ok ([Package.mk "app" "A" "1"], [notFoundMsg (Package.mk "app" "X" "1")]) ∧
    get_dependencies missingNameDb 10 "A" =
      .ok ([Package.mk "app" "A" "1"], []) := by
  refine ⟨rfl, rfl, rfl⟩

/-! ### Claim C7: which runs raise `DependencyError` -/

theorem goVersions_depError
    (step : Package → List Package → List Package → List String →
      Except SolveError (SolveRet × List String))
    (cat name : String) :
    ∀ (vs : List String) (s u : List Package) (log : List String) (m : String),
      goVersions step cat name vs s u log = .error (.dependencyError m) →
      ∃ p s' u' log', step p s' u' log' = .error (.dependencyError m) := by
  intro vs
  induction vs with
  | nil =>
    intro s u log m h
    simp [goVersions] at h
  | cons v vs ih =>
    intro s u log m h
    simp only [goVersions] at h
    cases hstep : step (Package.mk cat name v) s u log with
    | error e =>
      rw [hstep] at h
      simp at h
      subst h
      exact ⟨Package.mk cat name v, s, u, log, hstep⟩
    | ok r =>
      obtain ⟨ret, log'⟩ := r
      cases ret with
      | pair s' u' =>
        rw [hstep] at h
        exact ih s' u' log' m h
      | bare s' =>
        rw [hstep] at h
        simp at h

theorem goDeps_depError (db : PackageDB)
    (step : Package → List Package → List Package → List String →
      Except SolveError (SolveRet × List String)) :
    ∀ (deps : List Dependency) (s u : List Package) (log : List String) (m : String),
      goDeps db step deps s u log = .error (.dependencyError m) →
      ∃ p s' u' log', step p s' u' log' = .error (.dependencyError m) := by
  intro deps
  induction deps with
  | nil =>
    intro s u log m h
    simp [goDeps] at h
  | cons dep deps ih =>
    intro s u log m h
    simp only [goDeps] at h
    split at h
    · exact ih s u log m h
    · rename_i versions hv
      split at h
      · rename_i e hgo
        simp at h
        subst h
        exact goVersions_depError step dep.category dep.package versions s u log m hgo
      · rename_i s' u' log' hgo
        exact ih s' u' log' m h

/-- Every `DependencyError` that `solve_dependencies` can raise is the
circular-dependency error for some package. -/
theorem solve_dependencies_depError :
    ∀ (fuel : Nat) (db : PackageDB) (pkg : Package) (s u : List Package)
      (log : List String) (m : String),
      solve_dependencies db fuel pkg s u log = .error (.dependencyError m) →
      ∃ p, m = circularMsg p := by
  intro fuel
  induction fuel with
  | zero =>
    intro db pkg s u log m h
    simp [solve_dependencies] at h
  | succ n ih =>
    intro db pkg s u log m h
    simp only [solve_dependencies] at h
    by_cases h1 : pkg ∈ s
    · rw [if_pos h1] at h
      simp at h
    · rw [if_neg h1] at h
      by_cases h2 : pkg ∈ u
      · rw [if_pos h2] at h
        simp at h
        exact ⟨pkg, h.symm⟩
      · rw [if_neg h2] at h
        split at h
        · simp at h
        · rename_i desc hdesc
          split at h
          · rename_i e hgo
            simp at h
            subst h
            obtain ⟨p, s', u', log', hstep⟩ :=
              goDeps_depError db _ desc.dependencies s (pyInsert pkg u) log m hgo
            exact ih db p s' u' log' m hstep
          · simp at h

theorem gdepsVersions_depError (db : PackageDB) (fuel : Nat) (cat name : String) :
    ∀ (vs : List String) (acc : List Package) (log : List String) (m : String),
      gdepsVersions db fuel cat name vs acc log = .error (.dependencyError m) →
      ∃ p, m = circularMsg p := by
  intro vs
  induction vs with
  | nil =>
    intro acc log m h
    simp [gdepsVersions] at h
  | cons v vs ih =>
    intro acc log m h
    simp only [gdepsVersions] at h
    split at h
    · rename_i e hs
      simp at h
      subst h
      exact solve_dependencies_depError fuel db _ [] [] log m hs
    · exact ih _ _ m h
    · simp at h

theorem getDepsNamed_depError (db : PackageDB) (fuel : Nat) (pkgname : String)
    (category : Option String) (name : String) (m : String)
    (h : getDepsNamed db fuel pkgname category name = .error (.dependencyError m)) :
    m = "no package with name " ++ pkgname ++ " found" ∨
    m = "ambiguous packagename" ∨
    ∃ p, m = circularMsg p := by
  simp only [getDepsNamed] at h
  by_cases hcat : category.getD "" = ""
  · rw [if_pos hcat] at h
    split at h
    · simp at h
      exact Or.inl h.symm
    · rename_i c1 hf
      split at h
      · simp at h
      · rename_i versions hv
        exact Or.inr (Or.inr (gdepsVersions_depError db fuel c1 name versions [] [] m h))
    · simp at h
      exact Or.inr (Or.inl h.symm)
  · rw [if_neg hcat] at h
    split at h
    · simp at h
    · rename_i versions hv
      exact Or.inr (Or.inr (gdepsVersions_depError db fuel _ name versions [] [] m h))

/-- Database with a two-cycle: `app/A-1 → {B}` and `app/B-1 → {A}`. -/
def cyclicDb : PackageDB :=
  PackageDB.mk ["app"]
    (fun c n => decide (c = "app") && (decide (n = "A") || decide (n = "B")))
    (fun c n => if c = "app" ∧ (n = "A" ∨ n = "B") then some ["1"] else none)
    (fun p =>
      if p = Package.mk "app" "A" "1" then
        some (PackageDescription.mk [depOn "app" "B"])
      else if p = Package.mk "app" "B" "1" then
        some (PackageDescription.mk [depOn "app" "A"])
      else none)

/-- C7: `get_dependencies` raises `DependencyError` exactly for a malformed
name (more than one `/`), a bare name found in no category, a bare name
found in more than one category, or a circular dependency, in each case
naming the offending identifier:
* more than one `/` in `pkgname` gives `bad package name: <pkgname>`;
* no category containing a bare name gives `no package with name <name> found`;
* two or more categories containing it give `ambiguous packagename`;
* reaching a package already on the active DFS path (the in-progress set)
  gives `circular dependency for <cat>/<name>-<version>`, as on the concrete
  two-cycle `A→B→A`, where the error names `A`;
* conversely, every `DependencyError` the code raises has one of these four
  shapes (lookups of an explicit `category/name` that is absent raise
  `InvalidKeyError`, not `DependencyError`). -/
theorem claim_C7 :
    (∀ (db : PackageDB) (fuel : Nat) (pkgname : String),
      3 ≤ (pySplit '/' pkgname).length →
      get_dependencies db fuel pkgname =
        .error (.dependencyError ("bad package name: " ++ pkgname))) ∧
    (∀ (db : PackageDB) (fuel : Nat) (name : String),
      pySplit '/' name = [name] →
      db.list_categories.filter (fun c => db.in_category c name) = [] →
      get_dependencies db fuel name =
        .error (.dependencyError ("no package with name " ++ name ++ " found"))) ∧
    (∀ (db : PackageDB) (fuel : Nat) (name c1 c2 : String) (rest : List String),
      pySplit '/' name = [name] →
      db.list_categories.filter (fun c => db.in_category c name) = c1 :: c2 :: rest →
      get_dependencies db fuel name =
        .error (.dependencyError "ambiguous packagename")) ∧
    (∀ (db : PackageDB) (fuel : Nat) (pkg : Package) (s u : List Package)
      (log : List String),
      ¬ pkg ∈ s → pkg ∈ u →
      solve_dependencies db (fuel + 1) pkg s u log =
        .error (.dependencyError (circularMsg pkg))) ∧
    get_dependencies cyclicDb 10 "A" =
      .error (.dependencyError (circularMsg (Package.mk "app" "A" "1"))) ∧
    (∀ (db : PackageDB) (fuel : Nat) (pkgname m : String),
      get_dependencies db fuel pkgname = .error (.dependencyError m) →
      m = "bad package name: " ++ pkgname ∨
      m = "no package with name " ++ pkgname ++ " found" ∨
      m = "ambiguous packagename" ∨
      ∃ p, m = circularMsg p) := by
  refine ⟨?_, ?_, ?_, ?_, rfl, ?_⟩
  · intro db fuel pkgname hlen
    simp only [get_dependencies]
    cases hp : pySplit '/' pkgname with
    | nil => rw [hp] at hlen
    | cons a t =>
      cases t with
      | nil => rw [hp] at hlen; simp at hlen
      | cons b t2 =>
        cases t2 with
        | nil => rw [hp] at hlen; simp at hlen
        | cons c t3 => rfl
  · intro db fuel name hsplit hfilter
    simp only [get_dependencies]
    rw [hsplit]
    simp only [getDepsNamed]
    rw [hfilter]
    simp
  · intro db fuel name c1 c2 rest hsplit hfilter
    simp only [get_dependencies]
    rw [hsplit]
    simp only [getDepsNamed]
    rw [hfilter]
    simp
  · intro db fuel pkg s u log hns hu
    simp only [solve_dependencies]
    rw [if_neg hns, if_pos hu]
  · intro db fuel pkgname m h
    simp only [get_dependencies] at h
    cases hp : pySplit '/' pkgname with
    | nil =>
      rw [hp] at h
      simp at h
      exact Or.inl h.symm
    | cons a t =>
      cases t with
      | nil =>
        rw [hp] at h
        rcases getDepsNamed_depError db fuel pkgname none a m h with h1 | h1 | h1
        · exact Or.inr (Or.inl h1)
        · exact Or.inr (Or.inr (Or.inl h1))
        · exact Or.inr (Or.inr (Or.inr h1))
      | cons b t2 =>
        cases t2 with
        | nil =>
          rw [hp] at h
          rcases getDepsNamed_depError db fuel pkgname (some a) b m h with h1 | h1 | h1
          · exact Or.inr (Or.inl h1)
          · exact Or.inr (Or.inr (Or.inl h1))
          · exact Or.inr (Or.inr (Or.inr h1))
        | cons c t3 =>
          rw [hp] at h
          simp at h
          exact Or.inl h.symm

theorem claim_C7_witness :
    get_dependencies diamondDb 5 "a/b/c" =
      .error (.dependencyError ("bad package name: " ++ "a/b/c")) ∧
    get_dependencies diamondDb 5 "nosuch" =
      .error (.dependencyError ("no package with name " ++ "nosuch" ++ " found")) ∧
    solve_dependencies diamondDb 5 (Package.mk "app" "A" "1") []
        [Package.mk "app" "A" "1"] [] =
      .error (.dependencyError (circularMsg (Package.mk "app" "A" "1"))) :=
  ⟨claim_C7.1 diamondDb 5 "a/b/c" (by decide),
    claim_C7.2.1 diamondDb 5 "nosuch" (by decide) (by decide),
    claim_C7.2.2.2.1 diamondDb 4 (Package.mk "app" "A" "1") []
      [Package.mk "app" "A" "1"] [] (by decide) (by decide)⟩

/-! ## Digest (`backend.py`, `Backend.digest`, explicit-package branch)

The overlay filesystem is abstracted to an association list from package
path (`category/name`) to the list of `*.ebuild` file names its directory
holds (glob order); `removeDir` models `shutil.rmtree`.  The external
`ebuild <name> manifest` invocation is a boolean oracle `toolOk` (its exit
status per package).  The run processes `sorted(pkgnames)` and stops at the
first raised exception, returning the filesystem and log at that point. -/

/-- Directory contents (ebuild names) for a package path, `none` when the
directory does not exist. -/
def lookupDir (dirs : List (String × List String)) (pkg : String) :
    Option (List String) :=
  (dirs.find? (fun e => decide (e.1 = pkg))).map Prod.snd

/-- `shutil.rmtree(pkg_path)`. -/
def removeDir (dirs : List (String × List String)) (pkg : String) :
    List (String × List String) :=
  dirs.filter (fun e => ¬ e.1 = pkg)

/-- Overlay state: package directories plus the logger output. -/
structure OverlayState where
  dirs : List (String × List String)
  log : List String
deriving DecidableEq, Repr

/-- How a `digest` run ends: normally, with the `ValueError` for a missing
ebuild (`next(pkg_path.glob('*.ebuild'))` on an empty glob), or with
`DigestError('ebuild manifest failed')`. -/
inductive DigestResult
  | ok
  | valueError (msg : String)
  | digestError (msg : String)
deriving DecidableEq, Repr

/-- The warning logged before erasing a failed package. -/
def eraseMsg (pkg : String) : String :=
  "Erasing " ++ pkg ++ " due to manifest failure."

/-- The `for pkg in sorted(pkgnames):` loop of `Backend.digest`. -/
def digestLoop (toolOk : String → Bool) (erase : Bool) :
    List String → OverlayState → OverlayState × DigestResult
  | [], st => (st, .ok)
  | pkg :: rest, st =>
    match lookupDir st.dirs pkg with
    | none => (st, .valueError ("No ebuild for " ++ pkg))
    | some [] => (st, .valueError ("No ebuild for " ++ pkg))
    | some (_ :: _) =>
      if toolOk pkg then digestLoop toolOk erase rest st
      else if erase then
        digestLoop toolOk erase rest
          (OverlayState.mk (removeDir st.dirs pkg) (st.log ++ [eraseMsg pkg]))
      else (st, .digestError "ebuild manifest failed")

/-- `Backend.digest` with an explicit `pkgnames` list: iterate the sorted
names, run the external tool in each directory, and on failure either erase
the directory (with a warning) or raise `DigestError`. -/
def digest (toolOk : String → Bool) (overlay : OverlayState)
    (pkgnames : List String) (erase : Bool) : OverlayState × DigestResult :=
  digestLoop toolOk erase (pySortStrings pkgnames) overlay

/-! ### Claim C8 lemmas -/

theorem lookupDir_cons_of_ne (e : String × List String)
    (t : List (String × List String)) (q : String) (h : ¬ e.1 = q) :
    lookupDir (e :: t) q = lookupDir t q := by
  simp only [lookupDir]
  rw [List.find?_cons_of_neg t (by simpa using h)]

theorem lookupDir_cons_of_eq (e : String × List String)
    (t : List (String × List String)) (q : String) (h : e.1 = q) :
    lookupDir (e :: t) q = some e.2 := by
  simp only [lookupDir]
  rw [List.find?_cons_of_pos t (by simpa using h)]
  rfl

theorem lookupDir_removeDir_self (dirs : List (String × List String)) (pkg : String) :
    lookupDir (removeDir dirs pkg) pkg = none := by
  induction dirs with
  | nil => rfl
  | cons e t ih =>
    simp only [removeDir, List.filter_cons] at ih ⊢
    by_cases h : e.1 = pkg
    · rw [if_neg (by simp [h])]
      exact ih
    · rw [if_pos (by simp [h])]
      rw [lookupDir_cons_of_ne e _ pkg h]
      exact ih

theorem lookupDir_removeDir_other (dirs : List (String × List String))
    (pkg q : String) (h : q ≠ pkg) :
    lookupDir (removeDir dirs pkg) q = lookupDir dirs q := by
  induction dirs with
  | nil => rfl
  | cons e t ih =>
    simp only [removeDir, List.filter_cons] at ih ⊢
    by_cases he : e.1 = pkg
    · rw [if_neg (by simp [he])]
      rw [lookupDir_cons_of_ne e t q (fun hcon => h ((hcon ▸ he).symm ▸ rfl))]
      exact ih
    · rw [if_pos (by simp [he])]
      by_cases hq : e.1 = q
      · rw [lookupDir_cons_of_eq e _ q hq, lookupDir_cons_of_eq e t q hq]
      · rw [lookupDir_cons_of_ne e _ q hq, lookupDir_cons_of_ne e t q hq]
        exact ih

theorem digestLoop_none_stays (toolOk : String → Bool) (erase : Bool) :
    ∀ (l : List String) (st : OverlayState) (pkg : String),
      lookupDir st.dirs pkg = none →
      lookupDir (digestLoop toolOk erase l st).1.dirs pkg = none := by
  intro l
  induction l with
  | nil => intro st pkg h; exact h
  | cons q rest ih =>
    intro st pkg h
    simp only [digestLoop]
    cases hd : lookupDir st.dirs q with
    | none => exact h
    | some es =>
      cases es with
      | nil => exact h
      | cons e t =>
        by_cases ht : toolOk q = true
        · rw [if_pos ht]
          exact ih st pkg h
        · rw [if_neg ht]
          by_cases he : erase = true
          · rw [if_pos he]
            apply ih
            by_cases hpq : pkg = q
            · subst hpq
              exact lookupDir_removeDir_self st.dirs pkg
            · rw [lookupDir_removeDir_other st.dirs q pkg hpq]
              exact h
          · rw [if_neg he]
            exact h

theorem digestLoop_log_mono (toolOk : String → Bool) (erase : Bool) :
    ∀ (l : List String) (st : OverlayState) (msg : String),
      msg ∈ st.log →
      msg ∈ (digestLoop toolOk erase l st).1.log := by
  intro l
  induction l with
  | nil => intro st msg h; exact h
  | cons q rest ih =>
    intro st msg h
    simp only [digestLoop]
    cases hd : lookupDir st.dirs q with
    | none => exact h
    | some es =>
      cases es with
      | nil => exact h
      | cons e t =>
        by_cases ht : toolOk q = true
        · rw [if_pos ht]
          exact ih st msg h
        · rw [if_neg ht]
          by_cases he : erase = true
          · rw [if_pos he]
            apply ih
            simp [h]
          · rw [if_neg he]
            exact h

/-- With `erase=true`, a name in the processed list whose tool run fails
ends up with its directory removed and the warning logged, provided the
list has no duplicates and every listed name has a non-empty directory. -/
theorem digestLoop_erase_removes (toolOk : String → Bool) :
    ∀ (l : List String) (st : OverlayState) (pkg : String),
      l.Nodup → pkg ∈ l → toolOk pkg = false →
      (∀ q ∈ l, ∃ es, lookupDir st.dirs q = some es ∧ es ≠ []) →
      lookupDir (digestLoop toolOk true l st).1.dirs pkg = none ∧
        eraseMsg pkg ∈ (digestLoop toolOk true l st).1.log := by
  intro l
  induction l with
  | nil => intro st pkg _ hmem; simp at hmem
  | cons q rest ih =>
    intro st pkg hnd hmem htool hdirs
    obtain ⟨es, hes, hne⟩ := hdirs q (List.mem_cons_self q rest)
    cases es with
    | nil => exact absurd rfl hne
    | cons e t =>
      simp only [digestLoop, hes]
      rcases List.mem_cons.mp hmem with hpq | hpq
      · subst hpq
        rw [if_neg (by simp [htool]), if_pos trivial]
        constructor
        · apply digestLoop_none_stays
          exact lookupDir_removeDir_self st.dirs pkg
        · apply digestLoop_log_mono
          simp
      · have hqp : pkg ≠ q := by
          intro hcon
          subst hcon
          exact (List.nodup_cons.mp hnd).1 hpq
        by_cases ht : toolOk q = true
        · rw [if_pos ht]
          exact ih st pkg (List.nodup_cons.mp hnd).2 hpq htool
            (fun r hr => hdirs r (List.mem_cons_of_mem q hr))
        · rw [if_neg ht, if_pos trivial]
          apply ih _ pkg (List.nodup_cons.mp hnd).2 hpq htool
          intro r hr
          obtain ⟨es', hes', hne'⟩ := hdirs r (List.mem_cons_of_mem q hr)
          refine ⟨es', ?_, hne'⟩
          have hrq : r ≠ q := by
            intro hcon
            subst hcon
            exact (List.nodup_cons.mp hnd).1 hr
          simpa [lookupDir_removeDir_other st.dirs q r hrq] using hes'

/-- With `erase=false` the loop never touches the filesystem. -/
theorem digestLoop_noerase_dirs (toolOk : String → Bool) :
    ∀ (l : List String) (st : OverlayState),
      (digestLoop toolOk false l st).1.dirs = st.dirs := by
  intro l
  induction l with
  | nil => intro st; rfl
  | cons q rest ih =>
    intro st
    simp only [digestLoop]
    cases hd : lookupDir st.dirs q with
    | none => rfl
    | some es =>
      cases es with
      | nil => rfl
      | cons e t =>
        by_cases ht : toolOk q = true
        · rw [if_pos ht]
          exact ih st
        · rw [if_neg ht]
          simp

/-- With `erase=false`, a failing tool run somewhere in the list (all names
having non-empty directories) makes the run end in `DigestError`. -/
theorem digestLoop_noerase_fails (toolOk : String → Bool) :
    ∀ (l : List String) (st : OverlayState) (pkg : String),
      pkg ∈ l → toolOk pkg = false →
      (∀ q ∈ l, ∃ es, lookupDir st.dirs q = some es ∧ es ≠ []) →
      (digestLoop toolOk false l st).2 = .digestError "ebuild manifest failed" := by
  intro l
  induction l with
  | nil => intro st pkg hmem; simp at hmem
  | cons q rest ih =>
    intro st pkg hmem htool hdirs
    obtain ⟨es, hes, hne⟩ := hdirs q (List.mem_cons_self q rest)
    cases es with
    | nil => exact absurd rfl hne
    | cons e t =>
      simp only [digestLoop, hes]
      by_cases ht : toolOk q = true
      · rw [if_pos ht]
        rcases List.mem_cons.mp hmem with hpq | hpq
        · subst hpq
          exact absurd ht (by simp [htool])
        · exact ih st pkg hpq htool (fun r hr => hdirs r (List.mem_cons_of_mem q hr))
      · rw [if_neg ht]
        simp

/-- C8: `digest` with an explicit package list whose tool run fails for
`pkg`.  With `erase=true`, `pkg`'s directory is removed and the warning
`Erasing <pkg> due to manifest failure.` is logged; with `erase=false`, the
run raises `DigestError('ebuild manifest failed')` and `pkg`'s directory is
left exactly as it was (indeed no directory is touched at all).  The
hypotheses say `pkg` is among the (duplicate-free) requested names and every
requested name has a directory containing at least one ebuild. -/
theorem claim_C8 (toolOk : String → Bool) (ov : OverlayState)
    (pkgnames : List String) (pkg : String)
    (hnd : pkgnames.Nodup) (hmem : pkg ∈ pkgnames) (htool : toolOk pkg = false)
    (hdirs : ∀ q ∈ pkgnames, ∃ es, lookupDir ov.dirs q = some es ∧ es ≠ []) :
    (lookupDir (digest toolOk ov pkgnames true).1.dirs pkg = none ∧
      eraseMsg pkg ∈ (digest toolOk ov pkgnames true).1.log) ∧
    ((digest toolOk ov pkgnames false).2 = .digestError "ebuild manifest failed" ∧
      lookupDir (digest toolOk ov pkgnames false).1.dirs pkg =
        lookupDir ov.dirs pkg) := by
  have hperm := perm_pySortStrings pkgnames
  have hnd' : (pySortStrings pkgnames).Nodup := hperm.nodup_iff.mpr hnd
  have hmem' : pkg ∈ pySortStrings pkgnames := hperm.mem_iff.mpr hmem
  have hdirs' : ∀ q ∈ pySortStrings pkgnames,
      ∃ es, lookupDir ov.dirs q = some es ∧ es ≠ [] :=
    fun q hq => hdirs q (hperm.mem_iff.mp hq)
  refine ⟨digestLoop_erase_removes toolOk _ ov pkg hnd' hmem' htool hdirs', ?_, ?_⟩
  · exact digestLoop_noerase_fails toolOk _ ov pkg hmem' htool hdirs'
  · rw [digest, digestLoop_noerase_dirs]

theorem claim_C8_witness :
    (lookupDir (digest (fun q => decide (q = "app/good"))
        (OverlayState.mk [("app/bad", ["bad-1.ebuild"]), ("app/good", ["good-1.ebuild"])] [])
        ["app/bad", "app/good"] true).1.dirs "app/bad" = none ∧
      eraseMsg "app/bad" ∈ (digest (fun q => decide (q = "app/good"))
        (OverlayState.mk [("app/bad", ["bad-1.ebuild"]), ("app/good", ["good-1.ebuild"])] [])
        ["app/bad", "app/good"] true).1.log) ∧
    ((digest (fun q => decide (q = "app/good"))
        (OverlayState.mk [("app/bad", ["bad-1.ebuild"]), ("app/good", ["good-1.ebuild"])] [])
        ["app/bad", "app/good"] false).2 = .digestError "ebuild manifest failed" ∧
      lookupDir (digest (fun q => decide (q = "app/good"))
        (OverlayState.mk [("app/bad", ["bad-1.ebuild"]), ("app/good", ["good-1.ebuild"])] [])
        ["app/bad", "app/good"] false).1.dirs "app/bad" =
        lookupDir [("app/bad", ["bad-1.ebuild"]), ("app/good", ["good-1.ebuild"])] "app/bad") :=
  claim_C8 (fun q => decide (q = "app/good"))
    (OverlayState.mk [("app/bad", ["bad-1.ebuild"]), ("app/good", ["good-1.ebuild"])] [])
    ["app/bad", "app/good"] "app/bad" (by decide) (by decide) (by decide)
    (by
      intro q hq
      rcases List.mem_cons.mp hq with h | h
      · subst h
        exact ⟨["bad-1.ebuild"], by decide, by decide⟩
      · simp only [List.mem_singleton] at h
        subst h
        exact ⟨["good-1.ebuild"], by decide, by decide⟩)

/-! ## Fast manifest (`fileutils.py`, `ManifestEntry` and `fast_manifest`)

A package directory is abstracted to the data `fast_manifest` reads: the
`files/*` entries, the `*.ebuild` entries (both with contents, in glob
order), the optional `metadata.xml` content, and the lines of a
pre-existing `Manifest` file (`none` when `Manifest` is not a file).  File
contents are byte lists; the SHA-512 and BLAKE2B hex digests are abstract
parameters `sha512`/`blake2b`, as the claims do not depend on the digest
values. -/

structure PkgDir where
  auxFiles : List (String × List Nat)
  ebuilds : List (String × List Nat)
  metadataXml : Option (List Nat)
  prevManifest : Option (List String)

/-- One manifest line:
`" ".join([ftype, name, size, "SHA512", sha512, "BLAKE2B", blake2b])`. -/
def manifestLine (sha512 blake2b : List Nat → String) (ftype name : String)
    (content : List Nat) : String :=
  ftype ++ " " ++ name ++ " " ++ toString content.length ++ " SHA512 " ++
    sha512 content ++ " BLAKE2B " ++ blake2b content

/-- The freshly digested entries: one `AUX` line per file under `files/`,
one `EBUILD` line per `*.ebuild`, one `MISC` line for `metadata.xml` when it
exists. -/
def manifestEntries (sha512 blake2b : List Nat → String) (d : PkgDir) :
    List String :=
  d.auxFiles.map (fun f => manifestLine sha512 blake2b "AUX" f.1 f.2) ++
    d.ebuilds.map (fun f => manifestLine sha512 blake2b "EBUILD" f.1 f.2) ++
    (match d.metadataXml with
     | some c => [manifestLine sha512 blake2b "MISC" "metadata.xml" c]
     | none => [])

/-- `fast_manifest`: the list of lines written to `Manifest` (the file body
is these lines joined with newlines).  When a previous `Manifest` file
exists its `DIST`-prefixed lines are appended verbatim and the whole list
is sorted; when none exists the fresh entries are written as-is, unsorted. -/
def fast_manifest (sha512 blake2b : List Nat → String) (d : PkgDir) :
    List String :=
  match d.prevManifest with
  | none => manifestEntries sha512 blake2b d
  | some prev =>
    pySortStrings (manifestEntries sha512 blake2b d ++
      prev.filter (fun l => pyStartsWith l "DIST"))

/-- A directory holding two ebuilds whose directory-enumeration order is not
lexicographic, and no previous `Manifest`. -/
def cexDir : PkgDir :=
  PkgDir.mk [] [("b-2.ebuild", []), ("a-1.ebuild", [])] none none

/-- C4 counterexample: with no pre-existing `Manifest`, `fast_manifest`
writes the entry lines in directory-enumeration order without sorting
(`manifest.sort()` is only executed inside the `if manifest_path.is_file():`
block), so the written list differs from its sorted form — the claim's
"sorts the complete line list lexicographically before writing" fails. -/
theorem claim_C4_counterexample :
    fast_manifest (fun _ => "h") (fun _ => "h") cexDir ≠
      pySortStrings (fast_manifest (fun _ => "h") (fun _ => "h") cexDir) := by
  decide

theorem isPrefixOf_DIST_AUX (l : List Char) :
    List.isPrefixOf "DIST".data ("AUX".data ++ l) = false := rfl

theorem isPrefixOf_DIST_EBUILD (l : List Char) :
    List.isPrefixOf "DIST".data ("EBUILD".data ++ l) = false := rfl

theorem isPrefixOf_DIST_MISC (l : List Char) :
    List.isPrefixOf "DIST".data ("MISC".data ++ l) = false := rfl

theorem manifestLine_not_DIST (sha512 blake2b : List Nat → String)
    (ft nm : String) (c : List Nat)
    (hft : ft = "AUX" ∨ ft = "EBUILD" ∨ ft = "MISC") :
    pyStartsWith (manifestLine sha512 blake2b ft nm c) "DIST" = false := by
  rcases hft with h | h | h <;> subst h <;>
    simp only [manifestLine, pyStartsWith, String.data_append, List.append_assoc] <;>
    first
      | exact isPrefixOf_DIST_AUX _
      | exact isPrefixOf_DIST_EBUILD _
      | exact isPrefixOf_DIST_MISC _

theorem mem_manifestEntries (sha512 blake2b : List Nat → String) (d : PkgDir)
    (l : String) (h : l ∈ manifestEntries sha512 blake2b d) :
    (∃ nm c, (nm, c) ∈ d.auxFiles ∧ l = manifestLine sha512 blake2b "AUX" nm c) ∨
    (∃ nm c, (nm, c) ∈ d.ebuilds ∧ l = manifestLine sha512 blake2b "EBUILD" nm c) ∨
    (∃ c, d.metadataXml = some c ∧
      l = manifestLine sha512 blake2b "MISC" "metadata.xml" c) := by
  simp only [manifestEntries, List.mem_append, List.mem_map] at h
  rcases h with (⟨f, hf, hl⟩ | ⟨f, hf, hl⟩) | h
  · exact Or.inl ⟨f.1, f.2, hf, hl.symm⟩
  · exact Or.inr (Or.inl ⟨f.1, f.2, hf, hl.symm⟩)
  · cases hm : d.metadataXml with
    | none => rw [hm] at h; simp at h
    | some c =>
      rw [hm] at h
      simp only [List.mem_singleton] at h
      exact Or.inr (Or.inr ⟨c, rfl, h⟩)

theorem filter_DIST_manifestEntries (sha512 blake2b : List Nat → String)
    (d : PkgDir) :
    (manifestEntries sha512 blake2b d).filter
      (fun l => pyStartsWith l "DIST") = [] := by
  rw [List.filter_eq_nil]
  intro a ha
  rcases mem_manifestEntries sha512 blake2b d a ha with
    ⟨nm, c, _, hl⟩ | ⟨nm, c, _, hl⟩ | ⟨c, _, hl⟩
  · subst hl
    simp [manifestLine_not_DIST sha512 blake2b "AUX" nm c (Or.inl rfl)]
  · subst hl
    simp [manifestLine_not_DIST sha512 blake2b "EBUILD" nm c (Or.inr (Or.inl rfl))]
  · subst hl
    simp [manifestLine_not_DIST sha512 blake2b "MISC" "metadata.xml" c
      (Or.inr (Or.inr rfl))]

theorem filter_DIST_idem (l : List String) :
    (l.filter (fun s => pyStartsWith s "DIST")).filter
        (fun s => pyStartsWith s "DIST") =
      l.filter (fun s => pyStartsWith s "DIST") := by
  apply List.filter_eq_self.mpr
  intro a ha
  exact @List.of_mem_filter String (fun s => pyStartsWith s "DIST") a l ha

theorem manifestEntries_mk (sha512 blake2b : List Nat → String) (d : PkgDir)
    (p : Option (List String)) :
    manifestEntries sha512 blake2b
        (PkgDir.mk d.auxFiles d.ebuilds d.metadataXml p) =
      manifestEntries sha512 blake2b d := rfl

/-- C4 (amended): each written line is either a fresh entry in the exact
format `<KIND> <filename> <size> SHA512 <hex> BLAKE2B <hex>` for one of the
directory's aux/ebuild/metadata files, or a `DIST` line of the previous
`Manifest` carried over verbatim; every `DIST` line of the previous
`Manifest` is carried over; and *when a previous `Manifest` file exists* the
complete line list is sorted before writing, so from the second run onward
(identical file contents assumed) the output is byte-identical.  When no
previous `Manifest` exists the lines are written unsorted, in
directory-enumeration order (see the counterexample). -/
theorem claim_C4 :
    (∀ (sha512 blake2b : List Nat → String) (d : PkgDir) (prev : List String),
      d.prevManifest = some prev → SortedStr (fast_manifest sha512 blake2b d)) ∧
    (∀ (sha512 blake2b : List Nat → String) (d : PkgDir) (prev : List String)
      (l : String), d.prevManifest = some prev → l ∈ prev →
      pyStartsWith l "DIST" = true → l ∈ fast_manifest sha512 blake2b d) ∧
    (∀ (sha512 blake2b : List Nat → String) (d : PkgDir) (l : String),
      l ∈ fast_manifest sha512 blake2b d →
      (∃ prev, d.prevManifest = some prev ∧ l ∈ prev ∧
        pyStartsWith l "DIST" = true) ∨
      (∃ nm c, (nm, c) ∈ d.auxFiles ∧
        l = manifestLine sha512 blake2b "AUX" nm c) ∨
      (∃ nm c, (nm, c) ∈ d.ebuilds ∧
        l = manifestLine sha512 blake2b "EBUILD" nm c) ∨
      (∃ c, d.metadataXml = some c ∧
        l = manifestLine sha512 blake2b "MISC" "metadata.xml" c)) ∧
    (∀ (sha512 blake2b : List Nat → String) (d : PkgDir),
      fast_manifest sha512 blake2b
          (PkgDir.mk d.auxFiles d.ebuilds d.metadataXml
            (some (fast_manifest sha512 blake2b
              (PkgDir.mk d.auxFiles d.ebuilds d.metadataXml
                (some (fast_manifest sha512 blake2b d)))))) =
        fast_manifest sha512 blake2b
          (PkgDir.mk d.auxFiles d.ebuilds d.metadataXml
            (some (fast_manifest sha512 blake2b d)))) := by
  refine ⟨?_, ?_, ?_, ?_⟩
  · intro sha512 blake2b d prev hprev
    simp only [fast_manifest, hprev]
    exact sorted_pySortStrings _
  · intro sha512 blake2b d prev l hprev hl hdist
    simp only [fast_manifest, hprev]
    rw [(perm_pySortStrings _).mem_iff]
    exact List.mem_append_right _ (List.mem_filter.mpr ⟨hl, hdist⟩)
  · intro sha512 blake2b d l hl
    cases hprev : d.prevManifest with
    | none =>
      simp only [fast_manifest, hprev] at hl
      exact Or.inr (mem_manifestEntries sha512 blake2b d l hl)
    | some prev =>
      simp only [fast_manifest, hprev] at hl
      rw [(perm_pySortStrings _).mem_iff] at hl
      rcases List.mem_append.mp hl with hm | hm
      · exact Or.inr (mem_manifestEntries sha512 blake2b d l hm)
      · obtain ⟨hmem, hdist⟩ := List.mem_filter.mp hm
        exact Or.inl ⟨prev, rfl, hmem, hdist⟩
  · intro sha512 blake2b d
    have h2 : fast_manifest sha512 blake2b
        (PkgDir.mk d.auxFiles d.ebuilds d.metadataXml
          (some (fast_manifest sha512 blake2b d))) =
        pySortStrings (manifestEntries sha512 blake2b d ++
          (fast_manifest sha512 blake2b d).filter
            (fun l => pyStartsWith l "DIST")) := rfl
    have h3 : fast_manifest sha512 blake2b
        (PkgDir.mk d.auxFiles d.ebuilds d.metadataXml
          (some (fast_manifest sha512 blake2b
            (PkgDir.mk d.auxFiles d.ebuilds d.metadataXml
              (some (fast_manifest sha512 blake2b d)))))) =
        pySortStrings (manifestEntries sha512 blake2b d ++
          (fast_manifest sha512 blake2b
            (PkgDir.mk d.auxFiles d.ebuilds d.metadataXml
              (some (fast_manifest sha512 blake2b d)))).filter
            (fun l => pyStartsWith l "DIST")) := rfl
    rw [h3, h2]
    apply pySortStrings_congr_perm
    apply List.Perm.append_left
    have hperm : ((pySortStrings (manifestEntries sha512 blake2b d ++
        (fast_manifest sha512 blake2b d).filter
          (fun l => pyStartsWith l "DIST"))).filter
        (fun l => pyStartsWith l "DIST")).Perm
        ((manifestEntries sha512 blake2b d ++
          (fast_manifest sha512 blake2b d).filter
            (fun l => pyStartsWith l "DIST")).filter
          (fun l => pyStartsWith l "DIST")) :=
      (perm_pySortStrings _).filter _
    refine hperm.trans ?_
    rw [List.filter_append, filter_DIST_manifestEntries, List.nil_append,
      filter_DIST_idem]

theorem claim_C4_witness :
    SortedStr (fast_manifest (fun _ => "h") (fun _ => "h")
      (PkgDir.mk [] [("b-2.ebuild", []), ("a-1.ebuild", [])] none
        (some ["DIST src.tar.gz 1 SHA512 h BLAKE2B h"]))) ∧
    "DIST src.tar.gz 1 SHA512 h BLAKE2B h" ∈
      fast_manifest (fun _ => "h") (fun _ => "h")
        (PkgDir.mk [] [("b-2.ebuild", []), ("a-1.ebuild", [])] none
          (some ["DIST src.tar.gz 1 SHA512 h BLAKE2B h"])) :=
  ⟨claim_C4.1 (fun _ => "h") (fun _ => "h")
      (PkgDir.mk [] [("b-2.ebuild", []), ("a-1.ebuild", [])] none
        (some ["DIST src.tar.gz 1 SHA512 h BLAKE2B h"]))
      ["DIST src.tar.gz 1 SHA512 h BLAKE2B h"] rfl,
    claim_C4.2.1 (fun _ => "h") (fun _ => "h")
      (PkgDir.mk [] [("b-2.ebuild", []), ("a-1.ebuild", [])] none
        (some ["DIST src.tar.gz 1 SHA512 h BLAKE2B h"]))
      ["DIST src.tar.gz 1 SHA512 h BLAKE2B h"]
      "DIST src.tar.gz 1 SHA512 h BLAKE2B h" rfl (by decide) (by decide)⟩

/-! ## `Dependency.deserialize` (`g_collections.py`)

`Dependency.deserialize` first applies the anchored regex
`(?:([A-Za-z0-9+_@-]+)\?)?\s*\(?\s*([=<>!~A-Za-z0-9+_-./]*)(?:\[(.*)\])?\s*\)?`
and then hands the atom group to the portage library
(`portage.dep.Atom`, `get_operator`, `dep_getcpv`, `catsplit`, `pkgsplit`).
The regex is modelled exactly (including the backtracking between taking
and skipping the optional use-flag group and the greedy `.*` inside the
brackets).  The portage helpers are external library code and are modelled
from their documented behaviour on atom strings; the validation they
perform is modelled only as far as the atoms arising here need (a more
permissive model than portage's, which is sound for the round-trip theorem
because its hypotheses re-impose the portage grammar). -/

/-- ASCII uppercase letter. -/
def isUpperAZ (c : Char) : Bool := decide (65 ≤ c.toNat) && decide (c.toNat ≤ 90)

/-- ASCII letter or digit (`A-Za-z0-9`). -/
def isAlphaNumB (c : Char) : Bool := isDigitB c || isLowerAZ c || isUpperAZ c

/-- The use-flag character class `[A-Za-z0-9+_@-]`. -/
def isFlagChar (c : Char) : Bool :=
  isAlphaNumB c || c = '+' || c = '_' || c = '@' || c = '-'

/-- The atom character class `[=<>!~A-Za-z0-9+_-./]`. -/
def isAtomChar (c : Char) : Bool :=
  isAlphaNumB c || c = '=' || c = '<' || c = '>' || c = '!' || c = '~' ||
    c = '+' || c = '_' || c = '.' || c = '/' || c = '-'

/-- Python regex `\s` (ASCII whitespace). -/
def isPySpace (c : Char) : Bool :=
  c = ' ' || c = '\t' || c = '\n' || c = '\r' ||
    decide (c.toNat = 11) || decide (c.toNat = 12)

/-- The tail `\s*\)?$` of the regex. -/
def matchClose (l : List Char) : Bool :=
  let r := l.dropWhile isPySpace
  r.isEmpty || r = [')']

/-- The greedy `(.*)\]` inside the optional bracket group: split off the
content up to the last `]` whose tail matches `\s*\)?$`, the content not
crossing a newline (`.` does not match `\n`). -/
def splitBracketGreedy : List Char → Option (List Char × List Char)
  | [] => none
  | c :: rest =>
    match splitBracketGreedy rest with
    | some (u, t) => if c = '\n' then none else some (c :: u, t)
    | none => if c = ']' ∧ matchClose rest = true then some ([], rest) else none

/-- Match `\s*\(?\s*([=<>!~A-Za-z0-9+_-./]*)(?:\[(.*)\])?\s*\)?$` against
`l`, returning the atom group and the optional usedep group. -/
def parseTail (l : List Char) : Option (List Char × Option (List Char)) :=
  let l1 := l.dropWhile isPySpace
  let l2 := match l1 with
    | c :: r => if c = '(' then r else c :: r
    | [] => []
  let l3 := l2.dropWhile isPySpace
  let atom := l3.takeWhile isAtomChar
  let r := l3.dropWhile isAtomChar
  match r with
  | c :: r' =>
    if c = '[' then
      match splitBracketGreedy r' with
      | some (u, _) => some (atom, some u)
      | none => none
    else if matchClose (c :: r') = true then some (atom, none) else none
  | [] => if matchClose [] = true then some (atom, none) else none

/-- The full regex of `Dependency.deserialize`: try the optional
`([A-Za-z0-9+_@-]+)\?` use-flag group first (greedy), fall back to matching
without it. -/
def regexSplit (l : List Char) :
    Option (Option (List Char) × List Char × Option (List Char)) :=
  let flagRun := l.takeWhile isFlagChar
  let rest := l.dropWhile isFlagChar
  let tryFlag :=
    match rest with
    | c :: r =>
      if c = '?' ∧ ¬ flagRun.isEmpty then
        match parseTail r with
        | some (atom, usedep) => some (some flagRun, atom, usedep)
        | none => none
      else none
    | [] => none
  match tryFlag with
  | some res => some res
  | none =>
    match parseTail l with
    | some (atom, usedep) => some (none, atom, usedep)
    | none => none

/-- Model of `portage.dep.get_operator` on an atom string: the leading
comparison operator, with `=...*` glob atoms reported as `=*`; `none` for a
plain (operator-free) atom. -/
def atomOperatorOf (a : List Char) : Option String :=
  if ['>', '='].isPrefixOf a then some ">=" else
  if ['<', '='].isPrefixOf a then some "<=" else
  match a with
  | c :: _ =>
    if c = '>' then some ">"
    else if c = '<' then some "<"
    else if c = '~' then some "~"
    else if c = '=' then
      if a.getLast? = some '*' then some "=*" else some "="
    else none
  | [] => none

/-- Model of `portage.dep.dep_getcpv`: strip the operator prefix and, for a
glob atom, the trailing `*`. -/
def dep_getcpv (a : List Char) : List Char :=
  match atomOperatorOf a with
  | some "=*" => (a.drop 1).dropLast
  | some ">=" => a.drop 2
  | some "<=" => a.drop 2
  | some _ => a.drop 1
  | none => a

/-- Model of `portage.catsplit` (`cpv.split('/', 1)`), `none` when there is
no `/` (portage raises before this point for category-less atoms). -/
def catsplit (l : List Char) : Option (List Char × List Char) :=
  let cat := l.takeWhile (fun c => ¬ c = '/')
  match l.dropWhile (fun c => ¬ c = '/') with
  | '/' :: rest => some (cat, rest)
  | _ => none

/-- Qualifier group of the portage version grammar: one of
`alpha|beta|pre|rc|p` followed by optional digits. -/
def isQualTagged (tag : List Char) (g : List Char) : Bool :=
  tag.isPrefixOf g && (g.drop tag.length).all isDigitB

/-- Any portage version qualifier group. -/
def isPortageQual (g : List Char) : Bool :=
  isQualTagged "alpha".data g || isQualTagged "beta".data g ||
    isQualTagged "pre".data g || isQualTagged "rc".data g ||
    isQualTagged "p".data g

/-- Last dot-group of the numeric part: `\d+[a-z]?`. -/
def lastGroupOk (g : List Char) : Bool :=
  let ds := g.takeWhile isDigitB
  let r := g.dropWhile isDigitB
  !ds.isEmpty && (r.isEmpty || decide (r.length = 1) && r.all isLowerAZ)

/-- Non-last dot-group: `\d+`. -/
def isVerNum (g : List Char) : Bool := !g.isEmpty && g.all isDigitB

/-- The dot-groups of the numeric part of a portage version. -/
def isVerBase : List (List Char) → Bool
  | [] => false
  | [g] => lastGroupOk g
  | g :: gs => isVerNum g && isVerBase gs

/-- The portage version grammar without a revision:
`\d+(\.\d+)*[a-z]?(_( alpha|beta|pre|rc|p)\d*)*`. -/
def isVerCore (l : List Char) : Bool :=
  match splitOnChar '_' l with
  | [] => false
  | base :: quals => isVerBase (splitOnChar '.' base) && quals.all isPortageQual

/-- Split `ver(-rN)?`: the version core plus the optional revision digits. -/
def splitRev (l : List Char) : Option (List Char × List Char) :=
  match splitOnChar '-' l with
  | [v] => if isVerCore v then some (v, []) else none
  | [v, r] =>
    match r with
    | c :: ds =>
      if c = 'r' then
        if !ds.isEmpty && ds.all isDigitB && isVerCore v then some (v, ds) else none
      else none
    | [] => none
  | _ => none

/-- The `pn_inval` alternative of portage's `_pv` regex at a candidate `-`:
does the remainder decompose as `V ++ '-' :: W` with `V` matching the
`pn_inval` content `ver(-rN)?` and `W` matching the trailing `ver(-rN)?$`?
`accV` holds the reversed prefix consumed so far while scanning for the
inner separator. -/
def pnInvalGo : List Char → List Char → Bool
  | _, [] => false
  | accV, c :: w =>
    (if c = '-' then (splitRev accV.reverse).isSome && (splitRev w).isSome
     else false) || pnInvalGo (c :: accV) w

/-- `pn_inval` fires on the remainder after a candidate name/version `-`. -/
def pnInval (r : List Char) : Bool := pnInvalGo [] r

/-- Scan for the earliest `-` at which the lazy `pn` group of portage's
`_pv` regex completes a match: the greedy optional `pn_inval` sub-group is
tried first (its success means the package name has a version-like suffix —
`_pkgsplit` then returns `None`), else the remainder alone must parse as
`ver(-rN)?$`.  `acc` holds the reversed name prefix consumed so far. -/
def pkgsplitGo : List Char → List Char → Option (List Char × List Char × List Char)
  | _, [] => none
  | acc, c :: r =>
    if c = '-' then
      if pnInval r = true then none
      else
        match splitRev r with
        | some (v, rev) => if acc.isEmpty then none else some (acc.reverse, v, rev)
        | none => pkgsplitGo ('-' :: acc) r
    else pkgsplitGo (c :: acc) r

/-- Model of `portage.pkgsplit` on `name-version(-rRev)?` strings: the
package name, version and revision digits (empty for the `r0` default);
`none` when no split matches or when the matched name carries a
version-like suffix (the `pn_inval` rejection, on which the real
`Dependency.deserialize` crashes unpacking `None`). -/
def pkgsplit (l : List Char) : Option (List Char × List Char × List Char) :=
  pkgsplitGo [] l

/-- First character a category or package name may have (`[A-Za-z0-9+_]`). -/
def validFirstNameChar (c : Char) : Bool := isAlphaNumB c || c = '+' || c = '_'

/-- Category name character (`[A-Za-z0-9+_.-]`). -/
def isCatChar (c : Char) : Bool :=
  isAlphaNumB c || c = '+' || c = '_' || c = '.' || c = '-'

/-- Package name character (`[A-Za-z0-9+_-]`). -/
def isNameChar (c : Char) : Bool :=
  isAlphaNumB c || c = '+' || c = '_' || c = '-'

/-- Valid category name. -/
def validCat : List Char → Bool
  | [] => false
  | c :: r => validFirstNameChar c && (c :: r).all isCatChar

/-- Does the name end in `-version(-rN)?` (portage's `pn_inval`, which makes
an atom without that suffix invalid)? -/
def nameVersionSuffixed : List Char → Bool
  | [] => false
  | c :: r =>
    (if c = '-' then (splitRev r).isSome else false) || nameVersionSuffixed r

/-- Valid package name for a plain atom. -/
def validName (l : List Char) : Bool :=
  match l with
  | [] => false
  | c :: _ => validFirstNameChar c && l.all isNameChar && !nameVersionSuffixed l

/-- Model of the `portage.dep.Atom(rawatom)` validation combined with
`get_operator`, `dep_getcpv` and `catsplit`: the operator (if any), the
category and the rest of the cpv.  `none` where `Atom` raises
`InvalidAtom`. -/
def atomAnalyze (a : List Char) : Option (Option String × List Char × List Char) :=
  let op? := atomOperatorOf a
  let cpv := dep_getcpv a
  match catsplit cpv with
  | none => none
  | some (cat, rest) =>
    if validCat cat = true then
      match op? with
      | some op => if (pkgsplit rest).isSome then some (some op, cat, rest) else none
      | none => if validName rest = true then some (none, cat, rest) else none
    else none

/-- `Dependency.deserialize`: regex match, atom analysis, then either
`pkgsplit` (operator present; the revision is discarded — only `version` is
passed to the constructor) or the whole rest as the package name. -/
def Dependency.deserialize (s : String) : Option Dependency :=
  match regexSplit s.data with
  | none => none
  | some (rawuseflag, rawatom, rawusedep) =>
    match atomAnalyze rawatom with
    | none => none
    | some (op?, cat, rest) =>
      let usedep := String.mk (rawusedep.getD [])
      let useflag := String.mk (rawuseflag.getD [])
      match op? with
      | some op =>
        match pkgsplit rest with
        | none => none
        | some (pn, ver, _rev) =>
          some (Dependency.mk (String.mk cat) (String.mk pn) (String.mk ver)
            op usedep useflag)
      | none =>
        some (Dependency.mk (String.mk cat) (String.mk rest) "" "" usedep useflag)

example : Dependency.deserialize ">=dev-python/foo-1.2.3[extra]" =
    some (Dependency.mk "dev-python" "foo" "1.2.3" ">=" "extra" "") := by decide

example : Dependency.deserialize "flag? ( dev-python/foo )" =
    some (Dependency.mk "dev-python" "foo" "" "" "" "flag") := by decide

example : pkgsplit ("p-2-1.0".data) = none := by decide

example : Dependency.deserialize ">=c/p-2-1.0" = none := by decide

example : Dependency.deserialize "a/b-c" =
    some (Dependency.mk "a" "b-c" "" "" "" "") := by decide

example :
    Dependency.deserialize
      (Dependency.serialize (Dependency.mk "c" "p-x" "2.0b_alpha3" "=" "u? v" "f")) =
    some (Dependency.mk "c" "p-x" "2.0b_alpha3" "=" "u? v" "f") := by decide

theorem takeWhile_append_sat {p : Char → Bool} (xs ys : List Char)
    (h : ∀ c ∈ xs, p c = true) :
    (xs ++ ys).takeWhile p = xs ++ ys.takeWhile p := by
  induction xs with
  | nil => rfl
  | cons c t ih =>
    rw [List.cons_append, List.takeWhile_cons_of_pos (h c (List.mem_cons_self c t)),
      ih (fun d hd => h d (List.mem_cons_of_mem c hd)), List.cons_append]

theorem dropWhile_append_sat {p : Char → Bool} (xs ys : List Char)
    (h : ∀ c ∈ xs, p c = true) :
    (xs ++ ys).dropWhile p = ys.dropWhile p := by
  induction xs with
  | nil => rfl
  | cons c t ih =>
    rw [List.cons_append, List.dropWhile_cons_of_pos (h c (List.mem_cons_self c t)),
      ih (fun d hd => h d (List.mem_cons_of_mem c hd))]

/-- The head of `ys` (when any) fails `p`. -/
def headFails (p : Char → Bool) : List Char → Prop
  | [] => True
  | c :: _ => p c = false

theorem takeWhile_headFails {p : Char → Bool} (ys : List Char) (h : headFails p ys) :
    ys.takeWhile p = [] := by
  cases ys with
  | nil => rfl
  | cons c t => exact List.takeWhile_cons_of_neg (by simp [headFails] at h; simp [h])

theorem dropWhile_headFails {p : Char → Bool} (ys : List Char) (h : headFails p ys) :
    ys.dropWhile p = ys := by
  cases ys with
  | nil => rfl
  | cons c t => exact List.dropWhile_cons_of_neg (by simp [headFails] at h; simp [h])

theorem takeWhile_append_stop {p : Char → Bool} (xs ys : List Char)
    (h : ∀ c ∈ xs, p c = true) (hy : headFails p ys) :
    (xs ++ ys).takeWhile p = xs := by
  rw [takeWhile_append_sat xs ys h, takeWhile_headFails ys hy, List.append_nil]

theorem dropWhile_append_stop {p : Char → Bool} (xs ys : List Char)
    (h : ∀ c ∈ xs, p c = true) (hy : headFails p ys) :
    (xs ++ ys).dropWhile p = ys := by
  rw [dropWhile_append_sat xs ys h, dropWhile_headFails ys hy]

theorem splitOnChar_ne_nil (sep : Char) (l : List Char) :
    splitOnChar sep l ≠ [] := by
  cases l with
  | nil => simp [splitOnChar]
  | cons c t =>
    cases hs : splitOnChar sep t with
    | nil => simp [splitOnChar, hs]
    | cons g gs =>
      simp only [splitOnChar, hs]
      by_cases hc : c = sep
      · rw [if_pos hc]
        simp
      · rw [if_neg hc]
        simp

theorem splitOnChar_sepFree (sep : Char) (l : List Char) (h : sep ∉ l) :
    splitOnChar sep l = [l] := by
  induction l with
  | nil => rfl
  | cons c t ih =>
    have ht := ih (fun hc => h (List.mem_cons_of_mem c hc))
    have hc : ¬ c = sep := fun hc => h (hc ▸ List.mem_cons_self c t)
    simp only [splitOnChar, ht]
    rw [if_neg hc]

theorem splitOnChar_append_sep (sep : Char) (xs ys : List Char) (h : sep ∉ xs) :
    splitOnChar sep (xs ++ sep :: ys) = xs :: splitOnChar sep ys := by
  induction xs with
  | nil =>
    cases hs : splitOnChar sep ys with
    | nil => exact absurd hs (splitOnChar_ne_nil sep ys)
    | cons g gs =>
      simp only [List.nil_append, splitOnChar, hs]
      simp
  | cons c t ih =>
    have ht := ih (fun hc => h (List.mem_cons_of_mem c hc))
    have hc : ¬ c = sep := fun hc => h (hc ▸ List.mem_cons_self c t)
    simp only [List.cons_append, splitOnChar, List.append_eq, ht]
    rw [if_neg hc]

theorem splitOnChar_length (sep : Char) (l : List Char) :
    (splitOnChar sep l).length = l.count sep + 1 := by
  induction l with
  | nil => simp [splitOnChar]
  | cons c t ih =>
    cases hs : splitOnChar sep t with
    | nil => exact absurd hs (splitOnChar_ne_nil sep t)
    | cons g gs =>
      simp only [splitOnChar, hs]
      rw [hs] at ih
      by_cases hc : c = sep
      · rw [if_pos hc, List.count_cons]
        simp only [List.length_cons] at ih ⊢
        simp [hc, ih]
        try omega
      · rw [if_neg hc, List.count_cons]
        simp only [List.length_cons] at ih ⊢
        have : (c == sep) = false := by simpa using hc
        simp [this, ih]

theorem mem_splitOnChar (sep : Char) (l : List Char) (c : Char) (hc : c ∈ l) :
    c = sep ∨ ∃ g ∈ splitOnChar sep l, c ∈ g := by
  induction l with
  | nil => simp at hc
  | cons d t ih =>
    cases hs : splitOnChar sep t with
    | nil => exact absurd hs (splitOnChar_ne_nil sep t)
    | cons g gs =>
      simp only [splitOnChar, hs]
      rw [hs] at ih
      rcases List.mem_cons.mp hc with hcd | hct
      · subst hcd
        by_cases hd : c = sep
        · exact Or.inl hd
        · rw [if_neg hd]
          exact Or.inr ⟨c :: g, List.mem_cons_self _ _, List.mem_cons_self _ _⟩
      · rcases ih hct with h | ⟨g', hg', hcg'⟩
        · exact Or.inl h
        · by_cases hd : d = sep
          · rw [if_pos hd]
            exact Or.inr ⟨g', List.mem_cons_of_mem _ hg', hcg'⟩
          · rw [if_neg hd]
            rcases List.mem_cons.mp hg' with hgg | hgs
            · subst hgg
              exact Or.inr ⟨d :: g', List.mem_cons_self _ _, List.mem_cons_of_mem _ hcg'⟩
            · exact Or.inr ⟨g', List.mem_cons_of_mem _ hgs, hcg'⟩

theorem getLast?_mem : ∀ (l : List Char) (c : Char), l.getLast? = some c → c ∈ l := by
  intro l
  induction l with
  | nil => intro c h; simp at h
  | cons d t ih =>
    intro c h
    cases t with
    | nil =>
      simp only [List.getLast?_singleton] at h
      injection h with h
      simp [h]
    | cons e t' =>
      rw [List.getLast?_cons_cons] at h
      exact List.mem_cons_of_mem d (ih c h)

/-! ### Facts about the portage version grammar -/

theorem isQualTagged_chars (tag g : List Char)
    (htag : ∀ c ∈ tag, isLowerAZ c = true) (h : isQualTagged tag g = true) :
    ∀ c ∈ g, (isDigitB c || isLowerAZ c) = true := by
  simp only [isQualTagged, Bool.and_eq_true] at h
  obtain ⟨hpre, hall⟩ := h
  obtain ⟨t2, ht2⟩ := List.isPrefixOf_iff_prefix.mp hpre
  intro c hc
  rw [← ht2] at hc
  rcases List.mem_append.mp hc with hm | hm
  · simp [htag c hm]
  · have hdrop : g.drop tag.length = t2 := by
      rw [← ht2]
      exact List.drop_left tag t2
    rw [List.all_eq_true] at hall
    have := hall c (by rw [hdrop]; exact hm)
    simp [this]

theorem isPortageQual_chars (g : List Char) (h : isPortageQual g = true) :
    ∀ c ∈ g, (isDigitB c || isLowerAZ c) = true := by
  simp only [isPortageQual, Bool.or_eq_true] at h
  rcases h with ((((h | h) | h) | h)) | h <;>
    exact isQualTagged_chars _ g (by decide) h

theorem lastGroupOk_chars (g : List Char) (h : lastGroupOk g = true) :
    ∀ c ∈ g, (isDigitB c || isLowerAZ c) = true := by
  simp only [lastGroupOk, Bool.and_eq_true, Bool.or_eq_true] at h
  obtain ⟨_, hr⟩ := h
  intro c hc
  rw [← List.takeWhile_append_dropWhile isDigitB g] at hc
  rcases List.mem_append.mp hc with hm | hm
  · simp [List.mem_takeWhile_imp hm]
  · rcases hr with hr | hr
    · rw [List.isEmpty_iff.mp hr] at hm
      simp at hm
    · obtain ⟨_, hall⟩ := hr
      rw [List.all_eq_true] at hall
      simp [hall c hm]

theorem isVerNum_chars (g : List Char) (h : isVerNum g = true) :
    ∀ c ∈ g, isDigitB c = true := by
  simp only [isVerNum, Bool.and_eq_true, List.all_eq_true] at h
  exact h.2

theorem isVerBase_mem : ∀ (gs : List (List Char)), isVerBase gs = true →
    ∀ g ∈ gs, isVerNum g = true ∨ lastGroupOk g = true := by
  intro gs
  induction gs with
  | nil => intro _ g hg; simp at hg
  | cons g1 rest ih =>
    intro h g hg
    cases rest with
    | nil =>
      simp only [List.mem_singleton] at hg
      subst hg
      exact Or.inr (by simpa [isVerBase] using h)
    | cons g2 rest2 =>
      simp only [isVerBase, Bool.and_eq_true] at h
      rcases List.mem_cons.mp hg with hgg | hgr
      · subst hgg
        exact Or.inl h.1
      · exact ih h.2 g hgr

theorem verCore_chars (v : List Char) (hv : isVerCore v = true) :
    ∀ c ∈ v, (isDigitB c || isLowerAZ c || c = '.' || c = '_') = true := by
  intro c hc
  simp only [isVerCore] at hv
  cases hsp : splitOnChar '_' v with
  | nil => exact absurd hsp (splitOnChar_ne_nil _ v)
  | cons base quals =>
    rw [hsp] at hv
    simp only [Bool.and_eq_true, List.all_eq_true] at hv
    obtain ⟨hbase, hquals⟩ := hv
    rcases mem_splitOnChar '_' v c hc with hus | ⟨g, hg, hcg⟩
    · simp [hus]
    · rw [hsp] at hg
      rcases List.mem_cons.mp hg with hgb | hgq
      · subst hgb
        rcases mem_splitOnChar '.' g c hcg with hdot | ⟨g2, hg2, hcg2⟩
        · simp [hdot]
        · rcases isVerBase_mem _ hbase g2 hg2 with hn | hl
          · simp [isVerNum_chars g2 hn c hcg2]
          · have := lastGroupOk_chars g2 hl c hcg2
            simp only [Bool.or_eq_true] at this ⊢
            tauto
      · have := isPortageQual_chars g (hquals g hgq) c hcg
        simp only [Bool.or_eq_true] at this ⊢
        tauto

theorem verCore_no_hyphen (v : List Char) (hv : isVerCore v = true) : '-' ∉ v := by
  intro hm
  have := verCore_chars v hv '-' hm
  exact absurd this (by decide)

theorem verCore_no_star (v : List Char) (hv : isVerCore v = true) : '*' ∉ v := by
  intro hm
  have := verCore_chars v hv '*' hm
  exact absurd this (by decide)

theorem verCore_ne_nil (v : List Char) (hv : isVerCore v = true) : v ≠ [] := by
  intro h
  subst h
  exact absurd hv (by decide)

theorem verCore_head_digit (v : List Char) (hv : isVerCore v = true) :
    ∃ c r, v = c :: r ∧ isDigitB c = true := by
  cases v with
  | nil => exact absurd hv (by decide)
  | cons c r =>
    refine ⟨c, r, rfl, ?_⟩
    by_cases hc : isDigitB c = true
    · exact hc
    · exfalso
      cases hs : splitOnChar '_' r with
      | nil => exact absurd hs (splitOnChar_ne_nil _ r)
      | cons g gs =>
        simp only [isVerCore, splitOnChar, hs] at hv
        by_cases hcu : c = '_'
        · rw [if_pos hcu] at hv
          simp [isVerBase, splitOnChar, lastGroupOk] at hv
        · rw [if_neg hcu] at hv
          simp only [Bool.and_eq_true] at hv
          obtain ⟨hbase, _⟩ := hv
          cases hs2 : splitOnChar '.' g with
          | nil => exact absurd hs2 (splitOnChar_ne_nil _ g)
          | cons g2 gs2 =>
            simp only [splitOnChar, hs2] at hbase
            by_cases hcd : c = '.'
            · rw [if_pos hcd] at hbase
              cases gs2 with
              | nil => simp [isVerBase, isVerNum] at hbase
              | cons g3 gs3 => simp [isVerBase, isVerNum] at hbase
            · rw [if_neg hcd] at hbase
              cases gs2 with
              | nil =>
                simp only [isVerBase, lastGroupOk] at hbase
                rw [List.takeWhile_cons_of_neg (by simp [hc])] at hbase
                simp at hbase
              | cons g3 gs3 =>
                simp only [isVerBase, isVerNum, Bool.and_eq_true,
                  List.all_eq_true] at hbase
                exact hc (hbase.1.2 c (List.mem_cons_self c g2))

/-! ### `splitRev`, `pkgsplit` and `catsplit` on well-formed inputs -/

theorem splitRev_core (v : List Char) (hv : isVerCore v = true) :
    splitRev v = some (v, []) := by
  simp only [splitRev, splitOnChar_sepFree '-' v (verCore_no_hyphen v hv)]
  rw [if_pos hv]

theorem list3_of_length (L : List (List Char)) (h : 3 ≤ L.length) :
    ∃ a b c t, L = a :: b :: c :: t := by
  cases L with
  | nil => simp at h
  | cons a L1 =>
    cases L1 with
    | nil => simp at h
    | cons b L2 =>
      cases L2 with
      | nil => simp at h
      | cons c t => exact ⟨a, b, c, t, rfl⟩

theorem splitRev_mid_none (m v : List Char) (hv : isVerCore v = true) :
    splitRev (m ++ '-' :: v) = none := by
  have hvd := verCore_no_hyphen v hv
  by_cases hm : '-' ∈ m
  · have hcount : 2 ≤ (m ++ '-' :: v).count '-' := by
      rw [List.count_append, List.count_cons]
      have h1 : 0 < m.count '-' := List.count_pos_iff.mpr hm
      simp only [beq_self_eq_true, if_true]
      omega
    have hlen : 3 ≤ (splitOnChar '-' (m ++ '-' :: v)).length := by
      rw [splitOnChar_length]
      omega
    obtain ⟨a, b, c, t, heq⟩ := list3_of_length _ hlen
    simp only [splitRev, heq]
  · obtain ⟨c0, r0, hveq, hdig⟩ := verCore_head_digit v hv
    subst hveq
    have hsplit : splitOnChar '-' (m ++ '-' :: c0 :: r0) = [m, c0 :: r0] := by
      rw [splitOnChar_append_sep '-' m _ hm, splitOnChar_sepFree '-' _ hvd]
    simp only [splitRev, hsplit]
    rw [if_neg (fun h => absurd (h ▸ hdig) (by decide))]

theorem pnInvalGo_no_dash (w : List Char) (hw : '-' ∉ w) :
    ∀ accV, pnInvalGo accV w = false := by
  induction w with
  | nil => intro accV; rfl
  | cons c w' ih =>
    intro accV
    have hc : ¬ c = '-' := fun h => hw (h ▸ List.mem_cons_self c w')
    have hw' : '-' ∉ w' := fun h => hw (List.mem_cons_of_mem c h)
    simp only [pnInvalGo]
    rw [if_neg hc]
    simp only [Bool.false_or]
    exact ih hw' (c :: accV)

theorem pnInvalGo_mid (v : List Char) (hv : isVerCore v = true) :
    ∀ (m accV : List Char), (splitRev (accV.reverse ++ m)).isSome = false →
      pnInvalGo accV (m ++ '-' :: v) = false := by
  intro m
  induction m with
  | nil =>
    intro accV hns
    rw [List.append_nil] at hns
    simp only [List.nil_append, pnInvalGo]
    rw [if_pos trivial, hns, Bool.false_and, Bool.false_or]
    exact pnInvalGo_no_dash v (verCore_no_hyphen v hv) ('-' :: accV)
  | cons c m' ih =>
    intro accV hns
    simp only [List.cons_append, pnInvalGo, List.append_eq]
    have h2 : (splitRev (m' ++ '-' :: v)).isSome = false := by
      rw [splitRev_mid_none m' v hv]
      rfl
    have hfirst : (if c = '-' then (splitRev accV.reverse).isSome &&
        (splitRev (m' ++ '-' :: v)).isSome else false) = false := by
      by_cases hc : c = '-'
      · rw [if_pos hc, h2, Bool.and_false]
      · rw [if_neg hc]
    rw [hfirst, Bool.false_or]
    apply ih (c :: accV)
    rw [List.reverse_cons, List.append_assoc, List.singleton_append]
    exact hns

/-- On a pure version remainder the `pn_inval` alternative never fires. -/
theorem pnInval_final (v : List Char) (hv : isVerCore v = true) :
    pnInval v = false :=
  pnInvalGo_no_dash v (verCore_no_hyphen v hv) []

/-- At a `-` inside the name, `pn_inval` fires exactly when the rest of the
name is version-shaped; when it is not, the whole check is false. -/
theorem pnInval_mid (m v : List Char) (hv : isVerCore v = true)
    (hns : (splitRev m).isSome = false) :
    pnInval (m ++ '-' :: v) = false :=
  pnInvalGo_mid v hv m [] (by simpa using hns)

theorem pkgsplitGo_exact (v : List Char) (hv : isVerCore v = true) :
    ∀ (n acc : List Char), acc.reverse ++ n ≠ [] →
      nameVersionSuffixed n = false →
      pkgsplitGo acc (n ++ '-' :: v) = some (acc.reverse ++ n, v, []) := by
  intro n
  induction n with
  | nil =>
    intro acc hne _
    rw [List.append_nil] at hne ⊢
    simp only [List.nil_append, pkgsplitGo]
    rw [if_pos trivial]
    rw [if_neg (show ¬ pnInval v = true by simp [pnInval_final v hv])]
    simp only [splitRev_core v hv]
    rw [if_neg (fun h => hne (by simp [List.isEmpty_iff.mp h]))]
  | cons c n' ih =>
    intro acc hne hnv
    simp only [nameVersionSuffixed, Bool.or_eq_false_iff] at hnv
    obtain ⟨hnv1, hnv2⟩ := hnv
    simp only [List.cons_append, pkgsplitGo, List.append_eq]
    by_cases hc : c = '-'
    · rw [if_pos hc]
      subst hc
      rw [if_pos rfl] at hnv1
      rw [if_neg (show ¬ pnInval (n' ++ '-' :: v) = true by
        simp [pnInval_mid n' v hv hnv1])]
      simp only [splitRev_mid_none n' v hv]
      have := ih ('-' :: acc) (by simp) hnv2
      rw [this]
      simp [List.reverse_cons, List.append_assoc]
    · rw [if_neg hc]
      have := ih (c :: acc) (by simp) hnv2
      rw [this]
      simp [List.reverse_cons, List.append_assoc]

theorem pkgsplit_exact (n v : List Char) (hn : n ≠ [])
    (hnv : nameVersionSuffixed n = false) (hv : isVerCore v = true) :
    pkgsplit (n ++ '-' :: v) = some (n, v, []) := by
  have := pkgsplitGo_exact v hv n [] (by simpa using hn) hnv
  simpa [pkgsplit] using this

theorem catsplit_exact (cat rest : List Char) (hcat : '/' ∉ cat) :
    catsplit (cat ++ '/' :: rest) = some (cat, rest) := by
  have hsat : ∀ c ∈ cat, (decide (¬ c = '/')) = true := by
    intro c hc
    simp only [decide_eq_true_eq]
    exact fun h => hcat (h ▸ hc)
  have hhf : headFails (fun c => decide (¬ c = '/')) ('/' :: rest) := by
    simp [headFails]
  simp only [catsplit]
  rw [takeWhile_append_stop cat ('/' :: rest) hsat hhf,
    dropWhile_append_stop cat ('/' :: rest) hsat hhf]
  rfl

/-! ### Character-class facts -/

theorem isCatChar_atom (c : Char) (h : isCatChar c = true) : isAtomChar c = true := by
  simp only [isCatChar, Bool.or_eq_true] at h
  simp only [isAtomChar, Bool.or_eq_true]
  tauto

theorem isNameChar_atom (c : Char) (h : isNameChar c = true) : isAtomChar c = true := by
  simp only [isNameChar, Bool.or_eq_true] at h
  simp only [isAtomChar, Bool.or_eq_true]
  tauto

theorem verChar_atom (c : Char)
    (h : (isDigitB c || isLowerAZ c || c = '.' || c = '_') = true) :
    isAtomChar c = true := by
  simp only [Bool.or_eq_true] at h
  simp only [isAtomChar, isAlphaNumB, Bool.or_eq_true]
  tauto

theorem isAtomChar_not_special (c : Char) (h : isAtomChar c = true) :
    ¬ c = '?' ∧ ¬ c = '[' ∧ ¬ c = ']' ∧ ¬ c = '(' ∧ ¬ c = ')' ∧
      isPySpace c = false ∧ ¬ c = '\n' := by
  simp only [isAtomChar, isAlphaNumB, isDigitB, isLowerAZ, isUpperAZ,
    Bool.or_eq_true, Bool.and_eq_true, decide_eq_true_eq] at h
  have hn : (48 ≤ c.toNat ∧ c.toNat ≤ 57) ∨ (97 ≤ c.toNat ∧ c.toNat ≤ 122) ∨
      (65 ≤ c.toNat ∧ c.toNat ≤ 90) ∨ c.toNat = 61 ∨ c.toNat = 60 ∨
      c.toNat = 62 ∨ c.toNat = 33 ∨ c.toNat = 126 ∨ c.toNat = 43 ∨
      c.toNat = 95 ∨ c.toNat = 46 ∨ c.toNat = 47 ∨ c.toNat = 45 := by
    rcases h with (((((((((((h | h) | h) | h) | h) | h) | h) | h) | h) | h) | h) | h) | h
    · tauto
    · tauto
    · tauto
    · subst h; decide
    · subst h; decide
    · subst h; decide
    · subst h; decide
    · subst h; decide
    · subst h; decide
    · subst h; decide
    · subst h; decide
    · subst h; decide
    · subst h; decide
  refine ⟨?_, ?_, ?_, ?_, ?_, ?_, ?_⟩
  · intro heq; subst heq; revert hn; decide
  · intro heq; subst heq; revert hn; decide
  · intro heq; subst heq; revert hn; decide
  · intro heq; subst heq; revert hn; decide
  · intro heq; subst heq; revert hn; decide
  · cases hs : isPySpace c
    · rfl
    · exfalso
      simp only [isPySpace, Bool.or_eq_true, decide_eq_true_eq] at hs
      rcases hs with ((((h1 | h1) | h1) | h1) | h1) | h1
      · subst h1; revert hn; decide
      · subst h1; revert hn; decide
      · subst h1; revert hn; decide
      · subst h1; revert hn; decide
      · omega
      · omega
  · intro heq; subst heq; revert hn; decide

/-! ### `getLast?` helpers -/

theorem getLast?_cons_of_some (a e : Char) (l : List Char) (h : l.getLast? = some e) :
    (a :: l).getLast? = some e := by
  cases l with
  | nil => cases h
  | cons b t => rw [List.getLast?_cons_cons]; exact h

theorem getLast?_append_of_some (X l : List Char) (e : Char) (h : l.getLast? = some e) :
    (X ++ l).getLast? = some e := by
  induction X with
  | nil => exact h
  | cons a t ih => rw [List.cons_append]; exact getLast?_cons_of_some a e (t ++ l) ih

theorem getLast?_exists (l : List Char) (h : l ≠ []) : ∃ e, l.getLast? = some e := by
  induction l with
  | nil => exact absurd rfl h
  | cons a t ih =>
    cases t with
    | nil => exact ⟨a, rfl⟩
    | cons b t' =>
      obtain ⟨e, he⟩ := ih (by simp)
      exact ⟨e, by rw [List.getLast?_cons_cons]; exact he⟩

/-! ### The bracket group and the regex tail -/

theorem splitBracketGreedy_no_close (t : List Char) (ht : ']' ∉ t) :
    splitBracketGreedy t = none := by
  induction t with
  | nil => rfl
  | cons c r ih =>
    have hcr : ']' ∉ r := fun hm => ht (List.mem_cons_of_mem c hm)
    have hc : ¬ c = ']' := fun hcc => ht (hcc ▸ List.mem_cons_self c r)
    simp only [splitBracketGreedy, ih hcr]
    rw [if_neg (fun hcon => hc hcon.1)]

theorem splitBracketGreedy_exact (u t : List Char) (hu : ∀ c ∈ u, ¬ c = '\n')
    (ht : ']' ∉ t) (hm : matchClose t = true) :
    splitBracketGreedy (u ++ ']' :: t) = some (u, t) := by
  induction u with
  | nil =>
    simp only [List.nil_append, splitBracketGreedy, splitBracketGreedy_no_close t ht]
    simp [hm]
  | cons c u' ih =>
    have h1 : ∀ d ∈ u', ¬ d = '\n' := fun d hd => hu d (List.mem_cons_of_mem c hd)
    simp only [List.cons_append, splitBracketGreedy, ih h1]
    simp [hu c (List.mem_cons_self c u')]
    rw [ih h1]

/-- The value of `parseTail` once the atom run has been isolated: the final
match of the regex on the part after the atom. -/
def tailResult (atomL T : List Char) : Option (List Char × Option (List Char)) :=
  match T with
  | c :: r' =>
    if c = '[' then
      match splitBracketGreedy r' with
      | some (u, _) => some (atomL, some u)
      | none => none
    else if matchClose (c :: r') = true then some (atomL, none) else none
  | [] => if matchClose [] = true then some (atomL, none) else none

theorem tailResult_usedep (atomL u close : List Char)
    (hu : ∀ c ∈ u, ¬ c = '\n') (hnb : ']' ∉ close) (hm : matchClose close = true) :
    tailResult atomL ('[' :: (u ++ ']' :: close)) = some (atomL, some u) := by
  simp [tailResult, splitBracketGreedy_exact u close hu hnb hm]

theorem tailResult_noUsedep (atomL close : List Char)
    (hclose : close = [] ∨ close = [' ', ')']) :
    tailResult atomL close = some (atomL, none) := by
  rcases hclose with hcl | hcl <;> subst hcl
  · simp only [tailResult]
    rw [if_pos (by decide)]
  · simp only [tailResult]
    rw [if_neg (by decide), if_pos (by decide)]

theorem parseTail_split (pre atomL T : List Char)
    (hpre : pre = [] ∨ pre = [' ', '(', ' '])
    (hne : atomL ≠ []) (hatom : ∀ c ∈ atomL, isAtomChar c = true)
    (hT : headFails isAtomChar T) :
    parseTail (pre ++ (atomL ++ T)) = tailResult atomL T := by
  obtain ⟨c, r, hcr⟩ : ∃ c r, atomL = c :: r := by
    cases atomL with
    | nil => exact absurd rfl hne
    | cons c r => exact ⟨c, r, rfl⟩
  subst hcr
  have hc := isAtomChar_not_special c (hatom c (List.mem_cons_self c r))
  have e0 : ((c :: r) ++ T).dropWhile isPySpace = (c :: r) ++ T := by
    rw [List.cons_append]
    exact List.dropWhile_cons_of_neg (by simp [hc.2.2.2.2.2.1])
  have e2 : ((c :: r) ++ T).takeWhile isAtomChar = c :: r :=
    takeWhile_append_stop (c :: r) T hatom hT
  have e3 : ((c :: r) ++ T).dropWhile isAtomChar = T :=
    dropWhile_append_stop (c :: r) T hatom hT
  rcases hpre with hp | hp <;> subst hp
  · rw [List.nil_append]
    rw [List.cons_append] at e0 e2 e3
    rw [List.cons_append]
    simp only [parseTail, e0, if_neg hc.2.2.2.1, e2, e3, tailResult]
  · rw [List.cons_append] at e0 e2 e3
    have e4 : (' ' :: '(' :: ' ' :: (c :: (r ++ T))).dropWhile isPySpace =
        '(' :: ' ' :: (c :: (r ++ T)) := by
      rw [List.dropWhile_cons_of_pos (by decide)]
      exact List.dropWhile_cons_of_neg (by decide)
    have e5 : (' ' :: (c :: (r ++ T))).dropWhile isPySpace = c :: (r ++ T) := by
      rw [List.dropWhile_cons_of_pos (by decide)]
      exact List.dropWhile_cons_of_neg (by simp [hc.2.2.2.2.2.1])
    show parseTail (' ' :: '(' :: ' ' :: ((c :: r) ++ T)) = tailResult (c :: r) T
    rw [List.cons_append]
    simp only [parseTail, e4, if_pos rfl, if_true, e5, e2, e3, tailResult]

/-! ### The use-flag alternative of the regex -/

theorem dropWhile_flag_headSafe (P B : List Char)
    (hnf : ∃ c, c ∈ P ∧ isFlagChar c = false) (hq : ∀ c ∈ P, ¬ c = '?') :
    ∃ d D, (P ++ B).dropWhile isFlagChar = d :: D ∧ ¬ d = '?' := by
  induction P with
  | nil =>
    obtain ⟨c, hc, _⟩ := hnf
    exact absurd hc (List.not_mem_nil c)
  | cons c P' ih =>
    rw [List.cons_append]
    cases hfc : isFlagChar c with
    | false =>
      refine ⟨c, P' ++ B, ?_, hq c (List.mem_cons_self c P')⟩
      exact List.dropWhile_cons_of_neg (by simp [hfc])
    | true =>
      rw [List.dropWhile_cons_of_pos hfc]
      apply ih
      · obtain ⟨e, he, hef⟩ := hnf
        rcases List.mem_cons.mp he with heq | hmem
        · subst heq; rw [hfc] at hef; cases hef
        · exact ⟨e, hmem, hef⟩
      · exact fun e he => hq e (List.mem_cons_of_mem c he)

theorem regexSplit_noflag (P B atom : List Char) (u? : Option (List Char))
    (hnf : ∃ c, c ∈ P ∧ isFlagChar c = false) (hq : ∀ c ∈ P, ¬ c = '?')
    (hp : parseTail (P ++ B) = some (atom, u?)) :
    regexSplit (P ++ B) = some (none, atom, u?) := by
  obtain ⟨d, D, hd, hdq⟩ := dropWhile_flag_headSafe P B hnf hq
  simp only [regexSplit, hd, hp]
  rw [if_neg (fun hcon => hdq hcon.1)]

theorem regexSplit_flag (flag rest atom : List Char) (u? : Option (List Char))
    (hne : flag ≠ []) (hf : ∀ c ∈ flag, isFlagChar c = true)
    (hp : parseTail rest = some (atom, u?)) :
    regexSplit (flag ++ '?' :: rest) = some (some flag, atom, u?) := by
  have hfail : headFails isFlagChar ('?' :: rest) := (by decide : isFlagChar '?' = false)
  have e1 : (flag ++ '?' :: rest).takeWhile isFlagChar = flag :=
    takeWhile_append_stop flag _ hf hfail
  have e2 : (flag ++ '?' :: rest).dropWhile isFlagChar = '?' :: rest :=
    dropWhile_append_stop flag _ hf hfail
  simp only [regexSplit, e1, e2, hp]
  simp [List.isEmpty_iff, hne]

/-! ### Operator detection on well-formed atoms -/

theorem validFirstNameChar_toNat (c : Char) (h : validFirstNameChar c = true) :
    (48 ≤ c.toNat ∧ c.toNat ≤ 57) ∨ (97 ≤ c.toNat ∧ c.toNat ≤ 122) ∨
    (65 ≤ c.toNat ∧ c.toNat ≤ 90) ∨ c.toNat = 43 ∨ c.toNat = 95 := by
  simp only [validFirstNameChar, isAlphaNumB, isDigitB, isLowerAZ, isUpperAZ,
    Bool.or_eq_true, Bool.and_eq_true, decide_eq_true_eq] at h
  rcases h with (((h | h) | h) | h) | h
  · tauto
  · tauto
  · tauto
  · subst h; decide
  · subst h; decide

theorem validFirstNameChar_not_eq_beq (d : Char) (h : validFirstNameChar d = true) :
    ('=' == d) = false := by
  cases hb : ('=' == d)
  · rfl
  · exfalso
    have hde : '=' = d := eq_of_beq hb
    have := validFirstNameChar_toNat d h
    rw [← hde] at this
    revert this
    decide

theorem atomOperatorOf_first (c : Char) (r : List Char)
    (h : validFirstNameChar c = true) :
    atomOperatorOf (c :: r) = none := by
  have hn := validFirstNameChar_toNat c h
  have hgt : ¬ c = '>' := fun he => by subst he; revert hn; decide
  have hlt : ¬ c = '<' := fun he => by subst he; revert hn; decide
  have htl : ¬ c = '~' := fun he => by subst he; revert hn; decide
  have heq : ¬ c = '=' := fun he => by subst he; revert hn; decide
  have h1 : ['>', '='].isPrefixOf (c :: r) = false := by
    show (('>' == c) && List.isPrefixOf ['='] r) = false
    have hb : ('>' == c) = false := by
      cases hb : ('>' == c)
      · rfl
      · exact absurd (eq_of_beq hb).symm hgt
    rw [hb, Bool.false_and]
  have h2 : ['<', '='].isPrefixOf (c :: r) = false := by
    show (('<' == c) && List.isPrefixOf ['='] r) = false
    have hb : ('<' == c) = false := by
      cases hb : ('<' == c)
      · rfl
      · exact absurd (eq_of_beq hb).symm hlt
    rw [hb, Bool.false_and]
  simp only [atomOperatorOf]
  rw [if_neg (by simp [h1]), if_neg (by simp [h2])]
  simp [hgt, hlt, htl, heq]

theorem atomOperatorOf_ge (X : List Char) :
    atomOperatorOf ('>' :: '=' :: X) = some ">=" := by
  have h1 : ['>', '='].isPrefixOf ('>' :: '=' :: X) = true := by
    show (('>' == '>') && (('=' == '=') && List.isPrefixOf [] X)) = true
    simp [List.isPrefixOf]
  simp only [atomOperatorOf]
  rw [if_pos h1]

theorem atomOperatorOf_le (X : List Char) :
    atomOperatorOf ('<' :: '=' :: X) = some "<=" := by
  have h2 : ['<', '='].isPrefixOf ('<' :: '=' :: X) = true := by
    show (('<' == '<') && (('=' == '=') && List.isPrefixOf [] X)) = true
    simp [List.isPrefixOf]
  have h1 : ['>', '='].isPrefixOf ('<' :: '=' :: X) = false := rfl
  simp only [atomOperatorOf]
  rw [if_neg (show ¬ ['>', '='].isPrefixOf ('<' :: '=' :: X) = true by simp [h1]),
    if_pos h2]

theorem atomOperatorOf_gt (d : Char) (hd : validFirstNameChar d = true)
    (X : List Char) :
    atomOperatorOf ('>' :: d :: X) = some ">" := by
  have hdeq := validFirstNameChar_not_eq_beq d hd
  have h1 : ['>', '='].isPrefixOf ('>' :: d :: X) = false := by
    show (('>' == '>') && (('=' == d) && List.isPrefixOf [] X)) = false
    rw [hdeq, Bool.false_and]
    rfl
  have h2 : ['<', '='].isPrefixOf ('>' :: d :: X) = false := rfl
  simp only [atomOperatorOf]
  rw [if_neg (show ¬ ['>', '='].isPrefixOf ('>' :: d :: X) = true by simp [h1]),
    if_neg (show ¬ ['<', '='].isPrefixOf ('>' :: d :: X) = true by simp [h2])]
  simp

theorem atomOperatorOf_lt (d : Char) (hd : validFirstNameChar d = true)
    (X : List Char) :
    atomOperatorOf ('<' :: d :: X) = some "<" := by
  have hdeq := validFirstNameChar_not_eq_beq d hd
  have h2 : ['<', '='].isPrefixOf ('<' :: d :: X) = false := by
    show (('<' == '<') && (('=' == d) && List.isPrefixOf [] X)) = false
    rw [hdeq, Bool.false_and]
    rfl
  have h1 : ['>', '='].isPrefixOf ('<' :: d :: X) = false := rfl
  simp only [atomOperatorOf]
  rw [if_neg (show ¬ ['>', '='].isPrefixOf ('<' :: d :: X) = true by simp [h1]),
    if_neg (show ¬ ['<', '='].isPrefixOf ('<' :: d :: X) = true by simp [h2])]
  simp

theorem atomOperatorOf_tilde (d : Char) (X : List Char) :
    atomOperatorOf ('~' :: d :: X) = some "~" := rfl

theorem atomOperatorOf_eqop (X : List Char) (e : Char) (he : X.getLast? = some e)
    (hne : ¬ e = '*') :
    atomOperatorOf ('=' :: X) = some "=" := by
  have hlast : ('=' :: X).getLast? = some e := getLast?_cons_of_some '=' e X he
  have h1 : ['>', '='].isPrefixOf ('=' :: X) = false := rfl
  have h2 : ['<', '='].isPrefixOf ('=' :: X) = false := rfl
  simp only [atomOperatorOf]
  rw [if_neg (show ¬ ['>', '='].isPrefixOf ('=' :: X) = true by simp [h1]),
    if_neg (show ¬ ['<', '='].isPrefixOf ('=' :: X) = true by simp [h2])]
  simp only [hlast]
  simp [hne]

/-! ### `atomAnalyze` on the atoms the serializer emits -/

theorem validCat_parts (cat : List Char) (h : validCat cat = true) :
    ∃ c r, cat = c :: r ∧ validFirstNameChar c = true ∧
      ∀ e ∈ cat, isCatChar e = true := by
  cases cat with
  | nil => exact absurd h (by decide)
  | cons c r =>
    simp only [validCat, Bool.and_eq_true, List.all_eq_true] at h
    exact ⟨c, r, rfl, h.1, h.2⟩

theorem validCat_no_slash (cat : List Char) (h : validCat cat = true) :
    '/' ∉ cat := by
  intro hm
  obtain ⟨c, r, _, _, hall⟩ := validCat_parts cat h
  exact absurd (hall '/' hm) (by decide)

theorem validName_parts (l : List Char) (h : validName l = true) :
    l ≠ [] ∧ ∀ e ∈ l, isNameChar e = true := by
  cases l with
  | nil => exact absurd h (by decide)
  | cons c r =>
    simp only [validName, Bool.and_eq_true, List.all_eq_true] at h
    exact ⟨by simp, h.1.2⟩

theorem atomAnalyze_plain (cat name : List Char) (hc : validCat cat = true)
    (hn : validName name = true) :
    atomAnalyze (cat ++ '/' :: name) = some (none, cat, name) := by
  obtain ⟨c, r, hcr, hfirst, _⟩ := validCat_parts cat hc
  have hcs := validCat_no_slash cat hc
  have hop : atomOperatorOf (cat ++ '/' :: name) = none := by
    rw [hcr, List.cons_append]
    exact atomOperatorOf_first c _ hfirst
  have hcpv : dep_getcpv (cat ++ '/' :: name) = cat ++ '/' :: name := by
    simp only [dep_getcpv, hop]
  simp only [atomAnalyze, hop, hcpv, catsplit_exact cat name hcs]
  rw [if_pos hc, if_pos hn]

theorem atomAnalyze_ge (cat pkg ver : List Char) (hc : validCat cat = true)
    (hpne : pkg ≠ []) (hnv : nameVersionSuffixed pkg = false)
    (hv : isVerCore ver = true) :
    atomAnalyze ('>' :: '=' :: (cat ++ '/' :: (pkg ++ '-' :: ver))) =
      some (some ">=", cat, pkg ++ '-' :: ver) := by
  have hcs := validCat_no_slash cat hc
  have hop := atomOperatorOf_ge (cat ++ '/' :: (pkg ++ '-' :: ver))
  have hcpv : dep_getcpv ('>' :: '=' :: (cat ++ '/' :: (pkg ++ '-' :: ver))) =
      cat ++ '/' :: (pkg ++ '-' :: ver) := by
    simp only [dep_getcpv, hop]
    rfl
  simp only [atomAnalyze, hop, hcpv, catsplit_exact cat _ hcs]
  rw [if_pos hc]
  simp [pkgsplit_exact pkg ver hpne hnv hv]

theorem atomAnalyze_le (cat pkg ver : List Char) (hc : validCat cat = true)
    (hpne : pkg ≠ []) (hnv : nameVersionSuffixed pkg = false)
    (hv : isVerCore ver = true) :
    atomAnalyze ('<' :: '=' :: (cat ++ '/' :: (pkg ++ '-' :: ver))) =
      some (some "<=", cat, pkg ++ '-' :: ver) := by
  have hcs := validCat_no_slash cat hc
  have hop := atomOperatorOf_le (cat ++ '/' :: (pkg ++ '-' :: ver))
  have hcpv : dep_getcpv ('<' :: '=' :: (cat ++ '/' :: (pkg ++ '-' :: ver))) =
      cat ++ '/' :: (pkg ++ '-' :: ver) := by
    simp only [dep_getcpv, hop]
    rfl
  simp only [atomAnalyze, hop, hcpv, catsplit_exact cat _ hcs]
  rw [if_pos hc]
  simp [pkgsplit_exact pkg ver hpne hnv hv]

theorem atomAnalyze_gt (cat pkg ver : List Char) (hc : validCat cat = true)
    (hpne : pkg ≠ []) (hnv : nameVersionSuffixed pkg = false)
    (hv : isVerCore ver = true) :
    atomAnalyze ('>' :: (cat ++ '/' :: (pkg ++ '-' :: ver))) =
      some (some ">", cat, pkg ++ '-' :: ver) := by
  obtain ⟨c, r, hcr, hfirst, _⟩ := validCat_parts cat hc
  have hcs := validCat_no_slash cat hc
  have hop : atomOperatorOf ('>' :: (cat ++ '/' :: (pkg ++ '-' :: ver))) =
      some ">" := by
    rw [hcr, List.cons_append]
    exact atomOperatorOf_gt c hfirst _
  have hcpv : dep_getcpv ('>' :: (cat ++ '/' :: (pkg ++ '-' :: ver))) =
      cat ++ '/' :: (pkg ++ '-' :: ver) := by
    simp only [dep_getcpv, hop]
    rfl
  simp only [atomAnalyze, hop, hcpv, catsplit_exact cat _ hcs]
  rw [if_pos hc]
  simp [pkgsplit_exact pkg ver hpne hnv hv]

theorem atomAnalyze_lt (cat pkg ver : List Char) (hc : validCat cat = true)
    (hpne : pkg ≠ []) (hnv : nameVersionSuffixed pkg = false)
    (hv : isVerCore ver = true) :
    atomAnalyze ('<' :: (cat ++ '/' :: (pkg ++ '-' :: ver))) =
      some (some "<", cat, pkg ++ '-' :: ver) := by
  obtain ⟨c, r, hcr, hfirst, _⟩ := validCat_parts cat hc
  have hcs := validCat_no_slash cat hc
  have hop : atomOperatorOf ('<' :: (cat ++ '/' :: (pkg ++ '-' :: ver))) =
      some "<" := by
    rw [hcr, List.cons_append]
    exact atomOperatorOf_lt c hfirst _
  have hcpv : dep_getcpv ('<' :: (cat ++ '/' :: (pkg ++ '-' :: ver))) =
      cat ++ '/' :: (pkg ++ '-' :: ver) := by
    simp only [dep_getcpv, hop]
    rfl
  simp only [atomAnalyze, hop, hcpv, catsplit_exact cat _ hcs]
  rw [if_pos hc]
  simp [pkgsplit_exact pkg ver hpne hnv hv]

theorem atomAnalyze_tilde (cat pkg ver : List Char) (hc : validCat cat = true)
    (hpne : pkg ≠ []) (hnv : nameVersionSuffixed pkg = false)
    (hv : isVerCore ver = true) :
    atomAnalyze ('~' :: (cat ++ '/' :: (pkg ++ '-' :: ver))) =
      some (some "~", cat, pkg ++ '-' :: ver) := by
  obtain ⟨c, r, hcr, _, _⟩ := validCat_parts cat hc
  have hcs := validCat_no_slash cat hc
  have hop : atomOperatorOf ('~' :: (cat ++ '/' :: (pkg ++ '-' :: ver))) =
      some "~" := by
    rw [hcr, List.cons_append]
    exact atomOperatorOf_tilde c _
  have hcpv : dep_getcpv ('~' :: (cat ++ '/' :: (pkg ++ '-' :: ver))) =
      cat ++ '/' :: (pkg ++ '-' :: ver) := by
    simp only [dep_getcpv, hop]
    rfl
  simp only [atomAnalyze, hop, hcpv, catsplit_exact cat _ hcs]
  rw [if_pos hc]
  simp [pkgsplit_exact pkg ver hpne hnv hv]

theorem atomAnalyze_eqop (cat pkg ver : List Char) (hc : validCat cat = true)
    (hpne : pkg ≠ []) (hnv : nameVersionSuffixed pkg = false)
    (hv : isVerCore ver = true) :
    atomAnalyze ('=' :: (cat ++ '/' :: (pkg ++ '-' :: ver))) =
      some (some "=", cat, pkg ++ '-' :: ver) := by
  have hcs := validCat_no_slash cat hc
  obtain ⟨e, he⟩ := getLast?_exists ver (verCore_ne_nil ver hv)
  have hestar : ¬ e = '*' :=
    fun heq => verCore_no_star ver hv (heq ▸ getLast?_mem ver e he)
  have hlast : (cat ++ '/' :: (pkg ++ '-' :: ver)).getLast? = some e :=
    getLast?_append_of_some cat _ e
      (getLast?_cons_of_some '/' e _
        (getLast?_append_of_some pkg _ e (getLast?_cons_of_some '-' e ver he)))
  have hop : atomOperatorOf ('=' :: (cat ++ '/' :: (pkg ++ '-' :: ver))) =
      some "=" := atomOperatorOf_eqop _ e hlast hestar
  have hcpv : dep_getcpv ('=' :: (cat ++ '/' :: (pkg ++ '-' :: ver))) =
      cat ++ '/' :: (pkg ++ '-' :: ver) := by
    simp only [dep_getcpv, hop]
    rfl
  simp only [atomAnalyze, hop, hcpv, catsplit_exact cat _ hcs]
  rw [if_pos hc]
  simp [pkgsplit_exact pkg ver hpne hnv hv]

theorem atomChars_cpv (cat pkg ver : List Char)
    (hcat : ∀ e ∈ cat, isCatChar e = true)
    (hp : ∀ e ∈ pkg, isNameChar e = true) (hv : isVerCore ver = true) :
    ∀ c ∈ cat ++ '/' :: (pkg ++ '-' :: ver), isAtomChar c = true := by
  intro c hc
  rcases List.mem_append.mp hc with h | h
  · exact isCatChar_atom c (hcat c h)
  · rcases List.mem_cons.mp h with h1 | h1
    · subst h1; decide
    · rcases List.mem_append.mp h1 with h2 | h2
      · exact isNameChar_atom c (hp c h2)
      · rcases List.mem_cons.mp h2 with h3 | h3
        · subst h3; decide
        · exact verChar_atom c (verCore_chars ver hv c h3)

theorem atomChars_plain (cat name : List Char)
    (hcat : ∀ e ∈ cat, isCatChar e = true)
    (hn : ∀ e ∈ name, isNameChar e = true) :
    ∀ c ∈ cat ++ '/' :: name, isAtomChar c = true := by
  intro c hc
  rcases List.mem_append.mp hc with h | h
  · exact isCatChar_atom c (hcat c h)
  · rcases List.mem_cons.mp h with h1 | h1
    · subst h1; decide
    · exact isNameChar_atom c (hn c h1)

theorem atomChars_no_question (atomL : List Char)
    (h : ∀ c ∈ atomL, isAtomChar c = true) : ∀ c ∈ atomL, ¬ c = '?' :=
  fun c hc => (isAtomChar_not_special c (h c hc)).1

/-- The two branches of `Dependency.deserialize` after a successful regex
match and atom analysis, packaged for the round-trip proof. -/
theorem deserialize_assemble_op (s : String) (flag? u? : Option (List Char))
    (atomL cat pkg ver : List Char) (op : String)
    (hr : regexSplit s.data = some (flag?, atomL, u?))
    (ha : atomAnalyze atomL = some (some op, cat, pkg ++ '-' :: ver))
    (hpk : pkgsplit (pkg ++ '-' :: ver) = some (pkg, ver, [])) :
    Dependency.deserialize s = some (Dependency.mk (String.mk cat)
      (String.mk pkg) (String.mk ver) op (String.mk (u?.getD []))
      (String.mk (flag?.getD []))) := by
  simp only [Dependency.deserialize, hr, ha, hpk]

theorem deserialize_assemble_plain (s : String) (flag? u? : Option (List Char))
    (atomL cat rest : List Char)
    (hr : regexSplit s.data = some (flag?, atomL, u?))
    (ha : atomAnalyze atomL = some (none, cat, rest)) :
    Dependency.deserialize s = some (Dependency.mk (String.mk cat)
      (String.mk rest) "" "" (String.mk (u?.getD []))
      (String.mk (flag?.getD []))) := by
  simp only [Dependency.deserialize, hr, ha]

/-- Modelled from the spec's round-trip sentence: the domain on which the
serializer's output is parsed back exactly.  It consists of the
`Dependency` objects the backends actually construct: a portage-valid
category, either no operator and no version (with a portage-valid package
name) or one of the six comparison operators together with a package name
without a version-like `-ver(-rN)?` suffix (portage's `pn_inval` rejection,
on which `pkgsplit` returns `None` and the real `deserialize` crashes) and
a version in the portage grammar *without revision part*, a newline-free
usedep and a well-formed (possibly absent) useflag. -/
def wellFormedDependency (d : Dependency) : Prop :=
  validCat d.category.data = true ∧
  ((d.operator = "" ∧ d.version = "" ∧ validName d.package.data = true) ∨
   ((d.operator = ">=" ∨ d.operator = "<=" ∨ d.operator = ">" ∨
     d.operator = "<" ∨ d.operator = "~" ∨ d.operator = "=") ∧
    d.package.data ≠ [] ∧ (∀ c ∈ d.package.data, isNameChar c = true) ∧
    nameVersionSuffixed d.package.data = false ∧
    isVerCore d.version.data = true)) ∧
  (∀ c ∈ d.usedep.data, ¬ c = '\n') ∧
  (d.useflag = "" ∨
   (d.useflag.data ≠ [] ∧ ∀ c ∈ d.useflag.data, isFlagChar c = true))

theorem dataSlash : ("/" : String).data = ['/'] := rfl

theorem dataDash : ("-" : String).data = ['-'] := rfl

theorem dataLBrack : ("[" : String).data = ['['] := rfl

theorem dataRBrack : ("]" : String).data = [']'] := rfl

theorem dataFlagOpen : ("? ( " : String).data = ['?', ' ', '(', ' '] := rfl

theorem dataCloseParen : (" )" : String).data = [' ', ')'] := rfl

theorem roundTrip_plain (cS pS uS fS : String)
    (hcat : validCat cS.data = true) (hname : validName pS.data = true)
    (hnl : ∀ c ∈ uS.data, ¬ c = '\n')
    (huse : fS = "" ∨ (fS.data ≠ [] ∧ ∀ c ∈ fS.data, isFlagChar c = true)) :
    Dependency.deserialize (Dependency.serialize (Dependency.mk cS pS "" "" uS fS)) =
      some (Dependency.mk cS pS "" "" uS fS) := by
  obtain ⟨hpne, hpchars⟩ := validName_parts pS.data hname
  obtain ⟨c0, r0, hc0, hcfirst, hcall⟩ := validCat_parts cS.data hcat
  have hatomchars := atomChars_plain cS.data pS.data hcall hpchars
  have hane : cS.data ++ '/' :: pS.data ≠ [] := by simp
  have hslash : '/' ∈ cS.data ++ '/' :: pS.data :=
    List.mem_append.mpr (Or.inr (List.mem_cons_self _ _))
  have hnq := atomChars_no_question _ hatomchars
  have hnfw : ∃ c, c ∈ cS.data ++ '/' :: pS.data ∧ isFlagChar c = false :=
    ⟨'/', hslash, by decide⟩
  have hana := atomAnalyze_plain cS.data pS.data hcat hname
  have hA : (Dependency.atomStr (Dependency.mk cS pS "" "" uS fS)).data =
      cS.data ++ '/' :: pS.data := by
    show ((cS ++ "/" ++ pS : String)).data = _
    simp [String.data_append, dataSlash, List.append_assoc, List.cons_append]
  by_cases hu : uS = ""
  · subst hu
    by_cases hf : fS = ""
    · subst hf
      have hs : (Dependency.serialize (Dependency.mk cS pS "" "" "" "")).data =
          cS.data ++ '/' :: pS.data := hA
      have hT : headFails isAtomChar ([] : List Char) := trivial
      have hp : parseTail (cS.data ++ '/' :: pS.data) =
          some (cS.data ++ '/' :: pS.data, none) := by
        have h1 := parseTail_split [] (cS.data ++ '/' :: pS.data) [] (Or.inl rfl)
          hane hatomchars hT
        rw [List.nil_append, List.append_nil] at h1
        rw [h1]
        exact tailResult_noUsedep _ [] (Or.inl rfl)
      have hr : regexSplit (Dependency.serialize
          (Dependency.mk cS pS "" "" "" "")).data =
          some (none, cS.data ++ '/' :: pS.data, none) := by
        rw [hs]
        have h2 := regexSplit_noflag (cS.data ++ '/' :: pS.data) []
          (cS.data ++ '/' :: pS.data) none hnfw hnq (by rw [List.append_nil]; exact hp)
        rw [List.append_nil] at h2
        exact h2
      exact deserialize_assemble_plain _ none none _ cS.data pS.data hr hana
    · rcases huse with hfe | ⟨hfne, hfchars⟩
      · exact absurd hfe hf
      have hstep : Dependency.serialize (Dependency.mk cS pS "" "" "" fS) =
          fS ++ "? ( " ++ Dependency.atomStr (Dependency.mk cS pS "" "" "" fS) ++ " )" := by
        show (if (Dependency.mk cS pS "" "" "" fS).useflag ≠ "" then
            fS ++ "? ( " ++ Dependency.atomStr (Dependency.mk cS pS "" "" "" fS) ++ " )"
          else Dependency.atomStr (Dependency.mk cS pS "" "" "" fS)) = _
        rw [if_pos (show (Dependency.mk cS pS "" "" "" fS).useflag ≠ "" from hf)]
      have hs : (Dependency.serialize (Dependency.mk cS pS "" "" "" fS)).data =
          fS.data ++ '?' :: ' ' :: '(' :: ' ' ::
            ((cS.data ++ '/' :: pS.data) ++ [' ', ')']) := by
        rw [hstep]
        simp [String.data_append, hA, dataFlagOpen, dataCloseParen,
          List.append_assoc, List.cons_append]
      have hT : headFails isAtomChar ([' ', ')'] : List Char) :=
        (by decide : isAtomChar ' ' = false)
      have hp : parseTail (' ' :: '(' :: ' ' ::
          ((cS.data ++ '/' :: pS.data) ++ [' ', ')'])) =
          some (cS.data ++ '/' :: pS.data, none) := by
        exact (parseTail_split [' ', '(', ' '] (cS.data ++ '/' :: pS.data)
          [' ', ')'] (Or.inr rfl) hane hatomchars hT).trans
          (tailResult_noUsedep _ _ (Or.inr rfl))
      have hr : regexSplit (Dependency.serialize
          (Dependency.mk cS pS "" "" "" fS)).data =
          some (some fS.data, cS.data ++ '/' :: pS.data, none) := by
        rw [hs]
        exact regexSplit_flag fS.data _ _ none hfne hfchars hp
      exact deserialize_assemble_plain _ (some fS.data) none _ cS.data pS.data hr hana
  · have hune : (Dependency.mk cS pS "" "" uS fS).usedep ≠ "" := hu
    have hT : headFails isAtomChar ('[' :: (uS.data ++ ']' :: [])) :=
      (by decide : isAtomChar '[' = false)
    have hTc : headFails isAtomChar ('[' :: (uS.data ++ ']' :: [' ', ')'])) :=
      (by decide : isAtomChar '[' = false)
    by_cases hf : fS = ""
    · subst hf
      have hstep : Dependency.serialize (Dependency.mk cS pS "" "" uS "") =
          Dependency.atomStr (Dependency.mk cS pS "" "" uS "") ++ "[" ++ uS ++ "]" := by
        show (if (Dependency.mk cS pS "" "" uS "").usedep ≠ "" then
            Dependency.atomStr (Dependency.mk cS pS "" "" uS "") ++ "[" ++ uS ++ "]"
          else Dependency.atomStr (Dependency.mk cS pS "" "" uS "")) = _
        rw [if_pos (show (Dependency.mk cS pS "" "" uS "").usedep ≠ "" from hu)]
      have hs : (Dependency.serialize (Dependency.mk cS pS "" "" uS "")).data =
          (cS.data ++ '/' :: pS.data) ++ '[' :: (uS.data ++ ']' :: []) := by
        rw [hstep]
        simp [String.data_append, hA, dataLBrack, dataRBrack,
          List.append_assoc, List.cons_append]
      have hp : parseTail ((cS.data ++ '/' :: pS.data) ++
          '[' :: (uS.data ++ ']' :: [])) =
          some (cS.data ++ '/' :: pS.data, some uS.data) := by
        have h1 := parseTail_split [] (cS.data ++ '/' :: pS.data)
          ('[' :: (uS.data ++ ']' :: [])) (Or.inl rfl) hane hatomchars hT
        rw [List.nil_append] at h1
        rw [h1]
        exact tailResult_usedep _ uS.data [] hnl (by decide) (by decide)
      have hr : regexSplit (Dependency.serialize
          (Dependency.mk cS pS "" "" uS "")).data =
          some (none, cS.data ++ '/' :: pS.data, some uS.data) := by
        rw [hs]
        exact regexSplit_noflag (cS.data ++ '/' :: pS.data) _ _ (some uS.data)
          hnfw hnq hp
      exact deserialize_assemble_plain _ none (some uS.data) _ cS.data pS.data hr hana
    · rcases huse with hfe | ⟨hfne, hfchars⟩
      · exact absurd hfe hf
      have hstep : Dependency.serialize (Dependency.mk cS pS "" "" uS fS) =
          fS ++ "? ( " ++ (Dependency.atomStr (Dependency.mk cS pS "" "" uS fS) ++
            "[" ++ uS ++ "]") ++ " )" := by
        show (if (Dependency.mk cS pS "" "" uS fS).useflag ≠ "" then
            fS ++ "? ( " ++ (if (Dependency.mk cS pS "" "" uS fS).usedep ≠ "" then
              Dependency.atomStr (Dependency.mk cS pS "" "" uS fS) ++ "[" ++ uS ++ "]"
            else Dependency.atomStr (Dependency.mk cS pS "" "" uS fS)) ++ " )"
          else (if (Dependency.mk cS pS "" "" uS fS).usedep ≠ "" then
              Dependency.atomStr (Dependency.mk cS pS "" "" uS fS) ++ "[" ++ uS ++ "]"
            else Dependency.atomStr (Dependency.mk cS pS "" "" uS fS))) = _
        rw [if_pos (show (Dependency.mk cS pS "" "" uS fS).useflag ≠ "" from hf),
          if_pos (show (Dependency.mk cS pS "" "" uS fS).usedep ≠ "" from hu)]
      have hs : (Dependency.serialize (Dependency.mk cS pS "" "" uS fS)).data =
          fS.data ++ '?' :: ' ' :: '(' :: ' ' ::
            ((cS.data ++ '/' :: pS.data) ++ '[' :: (uS.data ++ ']' :: [' ', ')'])) := by
        rw [hstep]
        simp [String.data_append, hA, dataFlagOpen, dataCloseParen, dataLBrack,
          dataRBrack, List.append_assoc, List.cons_append]
      have hp : parseTail (' ' :: '(' :: ' ' ::
          ((cS.data ++ '/' :: pS.data) ++ '[' :: (uS.data ++ ']' :: [' ', ')']))) =
          some (cS.data ++ '/' :: pS.data, some uS.data) := by
        exact (parseTail_split [' ', '(', ' '] (cS.data ++ '/' :: pS.data)
          ('[' :: (uS.data ++ ']' :: [' ', ')'])) (Or.inr rfl) hane hatomchars
          hTc).trans (tailResult_usedep _ uS.data [' ', ')'] hnl (by decide)
          (by decide))
      have hr : regexSplit (Dependency.serialize
          (Dependency.mk cS pS "" "" uS fS)).data =
          some (some fS.data, cS.data ++ '/' :: pS.data, some uS.data) := by
        rw [hs]
        exact regexSplit_flag fS.data _ _ (some uS.data) hfne hfchars hp
      exact deserialize_assemble_plain _ (some fS.data) (some uS.data) _
        cS.data pS.data hr hana

theorem roundTrip_op (cS pS vS uS fS op : String) (opL : List Char)
    (hopL : op.data = opL) (hopne2 : op ≠ "")
    (hopatom : ∀ c ∈ opL, isAtomChar c = true)
    (hcat : validCat cS.data = true) (hpne : pS.data ≠ [])
    (hpchars : ∀ c ∈ pS.data, isNameChar c = true)
    (hnvs : nameVersionSuffixed pS.data = false)
    (hvc : isVerCore vS.data = true)
    (hnl : ∀ c ∈ uS.data, ¬ c = '\n')
    (huse : fS = "" ∨ (fS.data ≠ [] ∧ ∀ c ∈ fS.data, isFlagChar c = true))
    (hana : atomAnalyze (opL ++ (cS.data ++ '/' :: (pS.data ++ '-' :: vS.data))) =
      some (some op, cS.data, pS.data ++ '-' :: vS.data)) :
    Dependency.deserialize (Dependency.serialize (Dependency.mk cS pS vS op uS fS)) =
      some (Dependency.mk cS pS vS op uS fS) := by
  have hvne : vS ≠ "" := fun he => verCore_ne_nil vS.data hvc (by rw [he])
  obtain ⟨c0, r0, hc0, hcfirst, hcall⟩ := validCat_parts cS.data hcat
  have hatomchars : ∀ c ∈ opL ++ (cS.data ++ '/' :: (pS.data ++ '-' :: vS.data)),
      isAtomChar c = true := by
    intro c hc
    rcases List.mem_append.mp hc with h1 | h1
    · exact hopatom c h1
    · exact atomChars_cpv cS.data pS.data vS.data hcall hpchars hvc c h1
  have hane : opL ++ (cS.data ++ '/' :: (pS.data ++ '-' :: vS.data)) ≠ [] := by
    simp
  have hslash : '/' ∈ opL ++ (cS.data ++ '/' :: (pS.data ++ '-' :: vS.data)) :=
    List.mem_append.mpr (Or.inr (List.mem_append.mpr
      (Or.inr (List.mem_cons_self _ _))))
  have hnq := atomChars_no_question _ hatomchars
  have hnfw : ∃ c, c ∈ opL ++ (cS.data ++ '/' :: (pS.data ++ '-' :: vS.data)) ∧
      isFlagChar c = false := ⟨'/', hslash, by decide⟩
  have hpk := pkgsplit_exact pS.data vS.data hpne hnvs hvc
  have hAcond : (Dependency.mk cS pS vS op uS fS).operator ≠ "" ∧
      (Dependency.mk cS pS vS op uS fS).version ≠ "" := ⟨hopne2, hvne⟩
  have hA : (Dependency.atomStr (Dependency.mk cS pS vS op uS fS)).data =
      opL ++ (cS.data ++ '/' :: (pS.data ++ '-' :: vS.data)) := by
    simp only [Dependency.atomStr]
    rw [if_pos hAcond]
    simp [String.data_append, hopL, dataSlash, dataDash,
      List.append_assoc, List.cons_append]
  by_cases hu : uS = ""
  · subst hu
    by_cases hf : fS = ""
    · subst hf
      have hs : (Dependency.serialize (Dependency.mk cS pS vS op "" "")).data =
          opL ++ (cS.data ++ '/' :: (pS.data ++ '-' :: vS.data)) := hA
      have hT : headFails isAtomChar ([] : List Char) := trivial
      have hp : parseTail ((opL ++ (cS.data ++ '/' :: (pS.data ++ '-' :: vS.data))) ++
          ([] : List Char)) =
          some (opL ++ (cS.data ++ '/' :: (pS.data ++ '-' :: vS.data)), none) := by
        have h1 := parseTail_split [] _ [] (Or.inl rfl) hane hatomchars hT
        rw [List.nil_append] at h1
        rw [h1]
        exact tailResult_noUsedep _ [] (Or.inl rfl)
      have hr : regexSplit (Dependency.serialize
          (Dependency.mk cS pS vS op "" "")).data =
          some (none, opL ++ (cS.data ++ '/' :: (pS.data ++ '-' :: vS.data)), none) := by
        rw [hs]
        have h2 := regexSplit_noflag _ [] _ none hnfw hnq hp
        rw [List.append_nil] at h2
        exact h2
      exact deserialize_assemble_op _ none none _ cS.data pS.data vS.data op
        hr hana hpk
    · rcases huse with hfe | ⟨hfne, hfchars⟩
      · exact absurd hfe hf
      have hstep : Dependency.serialize (Dependency.mk cS pS vS op "" fS) =
          fS ++ "? ( " ++ Dependency.atomStr (Dependency.mk cS pS vS op "" fS) ++ " )" := by
        show (if (Dependency.mk cS pS vS op "" fS).useflag ≠ "" then
            fS ++ "? ( " ++ Dependency.atomStr (Dependency.mk cS pS vS op "" fS) ++ " )"
          else Dependency.atomStr (Dependency.mk cS pS vS op "" fS)) = _
        rw [if_pos (show (Dependency.mk cS pS vS op "" fS).useflag ≠ "" from hf)]
      have hs : (Dependency.serialize (Dependency.mk cS pS vS op "" fS)).data =
          fS.data ++ '?' :: ' ' :: '(' :: ' ' ::
            ((opL ++ (cS.data ++ '/' :: (pS.data ++ '-' :: vS.data))) ++ [' ', ')']) := by
        rw [hstep]
        simp [String.data_append, hA, dataFlagOpen, dataCloseParen,
          List.append_assoc, List.cons_append]
      have hT : headFails isAtomChar ([' ', ')'] : List Char) :=
        (by decide : isAtomChar ' ' = false)
      have hp : parseTail (' ' :: '(' :: ' ' ::
          ((opL ++ (cS.data ++ '/' :: (pS.data ++ '-' :: vS.data))) ++ [' ', ')'])) =
          some (opL ++ (cS.data ++ '/' :: (pS.data ++ '-' :: vS.data)), none) := by
        exact (parseTail_split [' ', '(', ' '] _ [' ', ')'] (Or.inr rfl) hane
          hatomchars hT).trans (tailResult_noUsedep _ _ (Or.inr rfl))
      have hr : regexSplit (Dependency.serialize
          (Dependency.mk cS pS vS op "" fS)).data =
          some (some fS.data, opL ++ (cS.data ++ '/' :: (pS.data ++ '-' :: vS.data)),
            none) := by
        rw [hs]
        exact regexSplit_flag fS.data _ _ none hfne hfchars hp
      exact deserialize_assemble_op _ (some fS.data) none _ cS.data pS.data vS.data op
        hr hana hpk
  · have hT : headFails isAtomChar ('[' :: (uS.data ++ ']' :: [])) :=
      (by decide : isAtomChar '[' = false)
    have hTc : headFails isAtomChar ('[' :: (uS.data ++ ']' :: [' ', ')'])) :=
      (by decide : isAtomChar '[' = false)
    by_cases hf : fS = ""
    · subst hf
      have hstep : Dependency.serialize (Dependency.mk cS pS vS op uS "") =
          Dependency.atomStr (Dependency.mk cS pS vS op uS "") ++ "[" ++ uS ++ "]" := by
        show (if (Dependency.mk cS pS vS op uS "").usedep ≠ "" then
            Dependency.atomStr (Dependency.mk cS pS vS op uS "") ++ "[" ++ uS ++ "]"
          else Dependency.atomStr (Dependency.mk cS pS vS op uS "")) = _
        rw [if_pos (show (Dependency.mk cS pS vS op uS "").usedep ≠ "" from hu)]
      have hs : (Dependency.serialize (Dependency.mk cS pS vS op uS "")).data =
          (opL ++ (cS.data ++ '/' :: (pS.data ++ '-' :: vS.data))) ++
            '[' :: (uS.data ++ ']' :: []) := by
        rw [hstep]
        simp [String.data_append, hA, dataLBrack, dataRBrack,
          List.append_assoc, List.cons_append]
      have hp : parseTail ((opL ++ (cS.data ++ '/' :: (pS.data ++ '-' :: vS.data))) ++
          '[' :: (uS.data ++ ']' :: [])) =
          some (opL ++ (cS.data ++ '/' :: (pS.data ++ '-' :: vS.data)),
            some uS.data) := by
        have h1 := parseTail_split [] _ ('[' :: (uS.data ++ ']' :: []))
          (Or.inl rfl) hane hatomchars hT
        rw [List.nil_append] at h1
        rw [h1]
        exact tailResult_usedep _ uS.data [] hnl (by decide) (by decide)
      have hr : regexSplit (Dependency.serialize
          (Dependency.mk cS pS vS op uS "")).data =
          some (none, opL ++ (cS.data ++ '/' :: (pS.data ++ '-' :: vS.data)),
            some uS.data) := by
        rw [hs]
        exact regexSplit_noflag _ _ _ (some uS.data) hnfw hnq hp
      exact deserialize_assemble_op _ none (some uS.data) _ cS.data pS.data vS.data op
        hr hana hpk
    · rcases huse with hfe | ⟨hfne, hfchars⟩
      · exact absurd hfe hf
      have hstep : Dependency.serialize (Dependency.mk cS pS vS op uS fS) =
          fS ++ "? ( " ++ (Dependency.atomStr (Dependency.mk cS pS vS op uS fS) ++
            "[" ++ uS ++ "]") ++ " )" := by
        show (if (Dependency.mk cS pS vS op uS fS).useflag ≠ "" then
            fS ++ "? ( " ++ (if (Dependency.mk cS pS vS op uS fS).usedep ≠ "" then
              Dependency.atomStr (Dependency.mk cS pS vS op uS fS) ++ "[" ++ uS ++ "]"
            else Dependency.atomStr (Dependency.mk cS pS vS op uS fS)) ++ " )"
          else (if (Dependency.mk cS pS vS op uS fS).usedep ≠ "" then
              Dependency.atomStr (Dependency.mk cS pS vS op uS fS) ++ "[" ++ uS ++ "]"
            else Dependency.atomStr (Dependency.mk cS pS vS op uS fS))) = _
        rw [if_pos (show (Dependency.mk cS pS vS op uS fS).useflag ≠ "" from hf),
          if_pos (show (Dependency.mk cS pS vS op uS fS).usedep ≠ "" from hu)]
      have hs : (Dependency.serialize (Dependency.mk cS pS vS op uS fS)).data =
          fS.data ++ '?' :: ' ' :: '(' :: ' ' ::
            ((opL ++ (cS.data ++ '/' :: (pS.data ++ '-' :: vS.data))) ++
              '[' :: (uS.data ++ ']' :: [' ', ')'])) := by
        rw [hstep]
        simp [String.data_append, hA, dataFlagOpen, dataCloseParen, dataLBrack,
          dataRBrack, List.append_assoc, List.cons_append]
      have hp : parseTail (' ' :: '(' :: ' ' ::
          ((opL ++ (cS.data ++ '/' :: (pS.data ++ '-' :: vS.data))) ++
            '[' :: (uS.data ++ ']' :: [' ', ')']))) =
          some (opL ++ (cS.data ++ '/' :: (pS.data ++ '-' :: vS.data)),
            some uS.data) := by
        exact (parseTail_split [' ', '(', ' '] _ ('[' :: (uS.data ++ ']' :: [' ', ')']))
          (Or.inr rfl) hane hatomchars hTc).trans
          (tailResult_usedep _ uS.data [' ', ')'] hnl (by decide) (by decide))
      have hr : regexSplit (Dependency.serialize
          (Dependency.mk cS pS vS op uS fS)).data =
          some (some fS.data, opL ++ (cS.data ++ '/' :: (pS.data ++ '-' :: vS.data)),
            some uS.data) := by
        rw [hs]
        exact regexSplit_flag fS.data _ _ (some uS.data) hfne hfchars hp
      exact deserialize_assemble_op _ (some fS.data) (some uS.data) _
        cS.data pS.data vS.data op hr hana hpk

end GSorcery
